import Mathlib

/-!
The zwaLang parser (`bin/parser.go`), as a shallow embedding.

The recursive-descent parser of `bin/parser.go` is embedded as total Lean
functions over an explicit parser state.  The tokenizer is not part of the
parser source; it is represented by the list of tokens it still has to
deliver.  Text written with `fmt.Printf` / `fmt.Println` is collected, in
order, in the `out` field of the state.
-/

namespace ZwaLang

/-! ## Tokens and the tokenizer interface -/

/-- Modelled from the spec: the token kinds of the tokenizer (its source file is
not in the repository snapshot), as enumerated in the data model.  `ILLEGAL`
stands for every kind the parser never tests for, the Go zero value of `Token`
among them. -/
inductive TokenType where
  | ILLEGAL
  | EOF
  | IDENT
  | NUMBER
  | SHOW
  | COLON
  | ASSIGN
  | PLUS
  | MINUS
  | ASTERISK
  | SLASH
  | MODULO
  | LPAREN
  | RPAREN
  | NATURAL_NUMBER_TYPE
  deriving DecidableEq, Repr

/-- Modelled from the spec: `Token`, a kind together with the raw text. -/
structure Token where
  Typ : TokenType
  Literal : String
  deriving DecidableEq, Repr

/-- The Go zero value of `Token`, the content of `curToken` and `peekToken`
before `NewParser` has primed them. -/
def Token.zero : Token := ⟨TokenType.ILLEGAL, ""⟩

/-- Modelled from the spec: the end-of-input token the tokenizer answers once
it is exhausted. -/
def Token.eof : Token := ⟨TokenType.EOF, ""⟩

/-- Modelled from the spec: the tokenizer, a cursor over the tokens it has not
delivered yet. -/
structure Lexer where
  input : List Token
  deriving DecidableEq, Repr

/-- Modelled from the spec: `Lexer.NextToken` delivers the next token and
advances; once the input is exhausted it answers end-of-input forever. -/
def Lexer.NextToken (l : Lexer) : Token × Lexer :=
  match l.input with
  | [] => (Token.eof, l)
  | t :: ts => (t, ⟨ts⟩)

/-! ## AST -/

/-- The values of the Go interface `Expression`: `nil`, or a pointer to a
`NumberLiteral`, a `Variable` or a `BinaryExpression`. -/
inductive Expression where
  | nil
  | NumberLiteral (Value : Int)
  | Variable (Name : String)
  | BinaryExpression (Left : Expression) (Operator : String) (Right : Expression)
  deriving DecidableEq, Repr

/-- The non-nil statement nodes `parseStatement` can return. -/
inductive Node where
  | VarDeclaration (Name : String) (Value : Int)
  | Assignment (VarName : String) (Expression : Expression)
  | PrintStatement (Expression : Expression)
  deriving DecidableEq, Repr

/-! ## `atoi` -/

/-- The value of a run of decimal digits, most significant first. -/
def digitsValue (ds : List Char) : Nat :=
  ds.foldl (fun acc c => 10 * acc + (c.toNat - 48)) 0

/-- White space in the sense of the scanner of package `fmt`. -/
def isScanSpace (c : Char) : Bool :=
  let r := c.toNat
  (0x0009 ≤ r && r ≤ 0x000d) || r = 0x0020 || r = 0x0085 || r = 0x00a0 || r = 0x1680 ||
    (0x2000 ≤ r && r ≤ 0x200a) || r = 0x2028 || r = 0x2029 || r = 0x202f || r = 0x205f ||
    r = 0x3000

/-- The white space `fmt.Sscanf` skips in front of a `%d` verb: the rest of the
text, or `none` when a newline is met, which makes the scan fail. -/
def skipSpace : List Char → Option (List Char)
  | [] => some []
  | c :: cs =>
    if c = '\n' then none
    else if isScanSpace c then skipSpace cs
    else some (c :: cs)

/-- The optional sign `fmt.Sscanf` accepts in front of the digits of `%d`:
whether the number is negative, and the text after the sign. -/
def scanSign (cs : List Char) : Bool × List Char :=
  match cs with
  | '+' :: r => (false, r)
  | '-' :: r => (true, r)
  | _ => (false, cs)

/-- Source function `atoi`: `fmt.Sscanf(str, "%d", &result)` into a
zero-initialised `int`.  Leading white space is skipped, an optional sign and
the longest run of decimal digits are read; when a newline comes first, when
there is no digit, or when the number does not fit 64 bits, the scan fails and
`result` keeps its zero. -/
def atoi (str : String) : Int :=
  match skipSpace str.toList with
  | none => 0
  | some cs =>
    let signed := scanSign cs
    let ds := signed.2.takeWhile Char.isDigit
    if ds = [] then 0
    else
      let v : Int := if signed.1 then -(digitsValue ds : Int) else (digitsValue ds : Int)
      if -(2 : Int) ^ 63 ≤ v ∧ v < (2 : Int) ^ 63 then v else 0

/-! ## Parser state -/

/-- The parser: tokenizer, current token and peek token as in the source,
together with the text printed so far (`out`). -/
structure Parser where
  lex : Lexer
  curToken : Token
  peekToken : Token
  out : List String
  deriving DecidableEq, Repr

namespace Parser

/-- Source function `nextToken`: the peek token becomes current and a new peek
token is pulled from the tokenizer. -/
def nextToken (p : Parser) : Parser :=
  { p with curToken := p.peekToken, peekToken := p.lex.NextToken.1, lex := p.lex.NextToken.2 }

/-- Source function `peekTokenIs`. -/
def peekTokenIs (p : Parser) (t : TokenType) : Bool :=
  p.peekToken.Typ = t

/-- Source function `peekTokenIsOperator`. -/
def peekTokenIsOperator (p : Parser) : Bool :=
  p.peekToken.Typ = TokenType.PLUS || p.peekToken.Typ = TokenType.MINUS ||
    p.peekToken.Typ = TokenType.ASTERISK || p.peekToken.Typ = TokenType.SLASH ||
    p.peekToken.Typ = TokenType.MODULO

/-- Appends one piece of printed text to the output. -/
def print (p : Parser) (s : String) : Parser :=
  { p with out := p.out ++ [s] }

/-- Number of tokens still ahead of the parser that are not end-of-input:
the termination measure of the descent and of the statement loop. -/
def size (p : Parser) : Nat :=
  p.lex.input.length + (if p.peekToken.Typ = TokenType.EOF then 0 else 1) +
    (if p.curToken.Typ = TokenType.EOF then 0 else 1)

theorem size_nextToken_le (p : Parser) : p.nextToken.size ≤ p.size := by
  rcases p with ⟨⟨l⟩, c, k, o⟩
  cases l with
  | nil => simp [nextToken, size, Lexer.NextToken, Token.eof]
  | cons t ts =>
    simp only [nextToken, size, Lexer.NextToken, List.length_cons]
    split <;> split <;> omega

theorem size_nextToken_lt (p : Parser) (h : p.curToken.Typ ≠ TokenType.EOF) :
    p.nextToken.size < p.size := by
  rcases p with ⟨⟨l⟩, c, k, o⟩
  cases l with
  | nil => simp_all [nextToken, size, Lexer.NextToken, Token.eof]
  | cons t ts =>
    simp_all only [nextToken, size, Lexer.NextToken, List.length_cons, ne_eq, if_false]
    split <;> omega

@[simp]
theorem size_print (p : Parser) (s : String) : (p.print s).size = p.size := rfl

end Parser

open Parser

/-- Result of an expression-level parse function started in state `p`: the
expression and the state reached, which is never further from end-of-input
than `p`. -/
abbrev Parsed (p : Parser) : Type := { r : Expression × Parser // r.2.size ≤ p.size }

mutual

/-- Descent with the state bound carried along: `parseExpression`. -/
def parseExpressionCore (p : Parser) : Parsed p :=
  match parseTermCore p with
  | ⟨(left, p1), h1⟩ =>
    match parseExpressionLoopCore left p1 with
    | ⟨r, h2⟩ => ⟨r, Nat.le_trans h2 h1⟩
termination_by 5 * p.size + 4
decreasing_by
  all_goals simp_wf
  · have h : p1.size ≤ p.size := h1
    omega

/-- The `for` loop of `parseExpression`. -/
def parseExpressionLoopCore (left : Expression) (p : Parser) : Parsed p :=
  if hc : p.curToken.Typ = TokenType.PLUS ∨ p.curToken.Typ = TokenType.MINUS then
    have hlt : p.nextToken.size < p.size :=
      size_nextToken_lt p (by rcases hc with h | h <;> simp [h])
    match parseTermCore p.nextToken with
    | ⟨(right, p2), h2⟩ =>
      match parseExpressionLoopCore
          (Expression.BinaryExpression left p.curToken.Literal right) p2 with
      | ⟨r, h3⟩ => ⟨r, Nat.le_trans h3 (Nat.le_trans h2 (Nat.le_of_lt hlt))⟩
  else ⟨(left, p), Nat.le_refl _⟩
termination_by 5 * p.size + 3
decreasing_by
  all_goals simp_wf
  · omega
  · have h : p2.size ≤ p.nextToken.size := h2
    omega

/-- Descent with the state bound carried along: `parseTerm`. -/
def parseTermCore (p : Parser) : Parsed p :=
  match parseFactorCore p with
  | ⟨(left, p1), h1⟩ =>
    match parseTermLoopCore left p1 with
    | ⟨r, h2⟩ => ⟨r, Nat.le_trans h2 h1⟩
termination_by 5 * p.size + 2
decreasing_by
  all_goals simp_wf
  · have h : p1.size ≤ p.size := h1
    omega

/-- The `for` loop of `parseTerm`. -/
def parseTermLoopCore (left : Expression) (p : Parser) : Parsed p :=
  if hc : p.curToken.Typ = TokenType.ASTERISK ∨ p.curToken.Typ = TokenType.SLASH ∨
      p.curToken.Typ = TokenType.MODULO then
    have hlt : p.nextToken.size < p.size :=
      size_nextToken_lt p (by rcases hc with h | h | h <;> simp [h])
    match parseFactorCore p.nextToken with
    | ⟨(right, p2), h2⟩ =>
      match parseTermLoopCore
          (Expression.BinaryExpression left p.curToken.Literal right) p2 with
      | ⟨r, h3⟩ => ⟨r, Nat.le_trans h3 (Nat.le_trans h2 (Nat.le_of_lt hlt))⟩
  else ⟨(left, p), Nat.le_refl _⟩
termination_by 5 * p.size + 1
decreasing_by
  all_goals simp_wf
  · omega
  · have h : p2.size ≤ p.nextToken.size := h2
    omega

/-- Descent with the state bound carried along: `parseFactor`. -/
def parseFactorCore (p : Parser) : Parsed p :=
  match hty : p.curToken.Typ with
  | TokenType.LPAREN =>
    have hlt : p.nextToken.size < p.size := size_nextToken_lt p (by simp [hty])
    match parseExpressionCore p.nextToken with
    | ⟨(expr, p2), h2⟩ =>
      let p3 := p2.nextToken
      if p3.curToken.Typ ≠ TokenType.RPAREN then
        ⟨(Expression.nil, p3.print "Expected )\n"),
          Nat.le_trans (size_nextToken_le p2) (Nat.le_trans h2 (Nat.le_of_lt hlt))⟩
      else
        ⟨(expr, p3.nextToken),
          Nat.le_trans (size_nextToken_le p3)
            (Nat.le_trans (size_nextToken_le p2) (Nat.le_trans h2 (Nat.le_of_lt hlt)))⟩
  | TokenType.IDENT =>
    let ident := p.curToken.Literal
    if p.peekTokenIsOperator then
      ⟨(Expression.Variable ident, p.nextToken), size_nextToken_le p⟩
    else ⟨(Expression.Variable ident, p), Nat.le_refl _⟩
  | TokenType.NUMBER =>
    let value := atoi p.curToken.Literal
    if p.peekTokenIsOperator then
      ⟨(Expression.NumberLiteral value, p.nextToken), size_nextToken_le p⟩
    else ⟨(Expression.NumberLiteral value, p), Nat.le_refl _⟩
  | _ =>
    ⟨(Expression.nil, p.print ("Unexpected token: " ++ p.curToken.Literal ++ "\n")),
      Nat.le_refl _⟩
termination_by 5 * p.size
decreasing_by
  all_goals simp_wf
  omega

end

/-- Source function `parseFactor`: numbers, variables and parentheses. -/
def parseFactor (p : Parser) : Expression × Parser := (parseFactorCore p).1

/-- The `for` loop of `parseTerm`, entered with the operand parsed so far. -/
def parseTermLoop (left : Expression) (p : Parser) : Expression × Parser :=
  (parseTermLoopCore left p).1

/-- Source function `parseTerm`: multiplication, division and remainder. -/
def parseTerm (p : Parser) : Expression × Parser := (parseTermCore p).1

/-- The `for` loop of `parseExpression`, entered with the operand parsed so far. -/
def parseExpressionLoop (left : Expression) (p : Parser) : Expression × Parser :=
  (parseExpressionLoopCore left p).1

/-- Source function `parseExpression`: addition and subtraction. -/
def parseExpression (p : Parser) : Expression × Parser := (parseExpressionCore p).1

theorem parseExpression_size_le (p : Parser) : (parseExpression p).2.size ≤ p.size :=
  (parseExpressionCore p).2

/-! ## Statements -/

/-- Source function `parsePrintStatement`. -/
def parsePrintStatement (p : Parser) : Option Node × Parser :=
  let p1 := p.nextToken
  let r := parseExpression p1
  (some (Node.PrintStatement r.1), r.2)

/-- Source function `parseAssignmentOrDeclaration`. -/
def parseAssignmentOrDeclaration (p : Parser) : Option Node × Parser :=
  let identifier := p.curToken.Literal
  let p1 := p.nextToken
  if p1.curToken.Typ = TokenType.COLON then
    let p2 := p1.nextToken
    if p2.curToken.Typ ≠ TokenType.NATURAL_NUMBER_TYPE then
      (none, p2.print
        ("Expected type of variable (Currently only supports type: number) after colon: "
          ++ p2.curToken.Literal ++ "\n"))
    else
      let p3 := p2.nextToken
      if p3.curToken.Typ ≠ TokenType.ASSIGN then
        (none, p3.print
          ("Expected assignment operator after type declaration: "
            ++ p3.curToken.Literal ++ "\n"))
      else
        let p4 := p3.nextToken
        let value := p4.curToken.Literal
        (some (Node.VarDeclaration identifier (atoi value)), p4)
  else if p1.curToken.Typ = TokenType.ASSIGN then
    let p2 := p1.nextToken
    let r := parseExpression p2
    (some (Node.Assignment identifier r.1), r.2)
  else (none, p1)

/-- Source function `parseStatement`. -/
def parseStatement (p : Parser) : Option Node × Parser :=
  match p.curToken.Typ with
  | TokenType.IDENT => parseAssignmentOrDeclaration p
  | TokenType.SHOW => parsePrintStatement p
  | _ => (none, p.print ("Unknown statement: " ++ p.curToken.Literal ++ "\n"))

theorem parsePrintStatement_size_le (p : Parser) :
    (parsePrintStatement p).2.size ≤ p.nextToken.size :=
  parseExpression_size_le _

theorem parseAssignmentOrDeclaration_size_le (p : Parser) :
    (parseAssignmentOrDeclaration p).2.size ≤ p.nextToken.size := by
  have h2 := size_nextToken_le p.nextToken
  have h3 := size_nextToken_le p.nextToken.nextToken
  have h4 := size_nextToken_le p.nextToken.nextToken.nextToken
  have h5 := parseExpression_size_le p.nextToken.nextToken
  unfold parseAssignmentOrDeclaration
  simp only []
  split
  · split
    · simp only [size_print]; omega
    · split
      · simp only [size_print]; omega
      · dsimp only; omega
  · split <;> dsimp only <;> omega

/-- One round of the statement loop moves the parser strictly closer to
end-of-input. -/
theorem size_parseStatement_nextToken_lt (p : Parser)
    (h : p.curToken.Typ ≠ TokenType.EOF) :
    (parseStatement p).2.nextToken.size < p.size := by
  have h1 := size_nextToken_lt p h
  have h2 := size_nextToken_le (parseStatement p).2
  unfold parseStatement at *
  split at h2
  · have := parseAssignmentOrDeclaration_size_le p
    omega
  · have := parsePrintStatement_size_le p
    omega
  · exact size_nextToken_lt (p.print _) h

/-- The `for` loop of `ParseProgram`, entered with the nodes collected so far. -/
def ParseProgramLoop (nodes : List Node) (p : Parser) : List Node × Parser :=
  if h : p.curToken.Typ ≠ TokenType.EOF then
    have _hlt : (parseStatement p).2.nextToken.size < p.size :=
      size_parseStatement_nextToken_lt p h
    let r := parseStatement p
    let nodes1 :=
      match r.1 with
      | some node => nodes ++ [node]
      | none => nodes
    ParseProgramLoop nodes1 r.2.nextToken
  else (nodes, p)
termination_by p.size

/-- Source function `ParseProgram`: the nodes of all statements up to
end-of-input, and the final parser state. -/
def ParseProgram (p : Parser) : List Node × Parser :=
  ParseProgramLoop [] p

/-- Source function `NewParser`: a parser over the tokenizer, primed with two tokens. -/
def NewParser (lex : Lexer) : Parser :=
  Parser.nextToken (Parser.nextToken ⟨lex, Token.zero, Token.zero, []⟩)

/-- The nodes `ParseProgram` returns for a fresh parser over the token
sequence `toks`. -/
def programNodes (toks : List Token) : List Node :=
  (ParseProgram (NewParser ⟨toks⟩)).1

/-- The diagnostics printed while a fresh parser runs `ParseProgram` over the
token sequence `toks`. -/
def programOutput (toks : List Token) : List String :=
  (ParseProgram (NewParser ⟨toks⟩)).2.out

/-! ## Parser states as token sequences -/

/-- The parser state whose current token, peek token and pending tokenizer
input are the sequence `ts` (followed by end-of-input), with `out` printed. -/
def Parser.ofTokens (ts : List Token) (out : List String) : Parser :=
  match ts with
  | [] => ⟨⟨[]⟩, Token.eof, Token.eof, out⟩
  | [t] => ⟨⟨[]⟩, t, Token.eof, out⟩
  | t :: u :: r => ⟨⟨r⟩, t, u, out⟩

/-! ## Vocabulary of the statements below -/

/-- The arithmetic operator kinds, as tested by `peekTokenIsOperator`. -/
def TokenType.isOperator (t : TokenType) : Bool :=
  t = TokenType.PLUS || t = TokenType.MINUS || t = TokenType.ASTERISK ||
    t = TokenType.SLASH || t = TokenType.MODULO

/-- The operator kinds `parseExpression` folds: `+` and `-`. -/
def TokenType.isAdditive (t : TokenType) : Bool :=
  t = TokenType.PLUS || t = TokenType.MINUS

/-- The operator kinds `parseTerm` folds: `*`, `/` and `%`. -/
def TokenType.isMultiplicative (t : TokenType) : Bool :=
  t = TokenType.ASTERISK || t = TokenType.SLASH || t = TokenType.MODULO

/-- An operand token: an identifier or a number. -/
def Token.isOperand (t : Token) : Bool :=
  t.Typ = TokenType.IDENT || t.Typ = TokenType.NUMBER

/-- The leaf `parseFactor` builds from an operand token. -/
def operandExpr (t : Token) : Expression :=
  match t.Typ with
  | TokenType.IDENT => Expression.Variable t.Literal
  | TokenType.NUMBER => Expression.NumberLiteral (atoi t.Literal)
  | _ => Expression.nil

/-- Whether a token sequence begins with an arithmetic operator (the empty
sequence, that is end-of-input, does not). -/
def startsWithOperator : List Token → Bool
  | [] => false
  | t :: _ => t.Typ.isOperator

/-- The state `p` with the text `o` printed before everything `p` has printed. -/
def Parser.prepend (o : List String) (p : Parser) : Parser :=
  { p with out := o ++ p.out }

/-- Positional value of a decimal numeral given least significant digit first. -/
def numeralValue : List Char → Nat
  | [] => 0
  | c :: cs => (c.toNat - 48) + 10 * numeralValue cs

/-- The literal `lit` denotes the Go `int` value `n`: `lit` is a non-empty run
of decimal digits, its positional value is `n`, and `n` fits the 64-bit `int`
of the `Value` fields. -/
def Denotes (lit : String) (n : Int) : Prop :=
  lit.toList ≠ [] ∧ (∀ c ∈ lit.toList, c.isDigit = true) ∧
    (numeralValue lit.toList.reverse : Int) = n ∧ n < (2 : Int) ^ 63

instance (lit : String) (n : Int) : Decidable (Denotes lit n) := by
  unfold Denotes
  infer_instance

/-- The tokens of a chain `o1 x1 ... on xn` given as (operator, operand) pairs. -/
def chainTokens : List (Token × Token) → List Token
  | [] => []
  | (o, x) :: r => o :: x :: chainTokens r

/-- The left-nested tree `(((x0 o1 x1) o2 x2) ... on xn)` over the leaf `x0`. -/
def leftNested (x0 : Expression) (chain : List (Token × Token)) : Expression :=
  chain.foldl (fun acc ox => Expression.BinaryExpression acc ox.1.Literal (operandExpr ox.2)) x0

/-- The last operand of the chain `x0 o1 x1 ... on xn`. -/
def lastOperand (x0 : Token) : List (Token × Token) → Token
  | [] => x0
  | (_, x) :: r => lastOperand x r

/-- Where the parser stands after the operand `x` when the chain `chain`
and then `rest` follow: on the next operator, or still on `x` when the chain is
over. -/
def afterOperand (x : Token) (chain : List (Token × Token)) (rest : List Token)
    (out : List String) : Parser :=
  match chain with
  | [] => Parser.ofTokens (x :: rest) out
  | _ :: _ => Parser.ofTokens (chainTokens chain ++ rest) out

/-- Whether an expression is absent (`nil`) or has an absent sub-expression. -/
def Expression.hasNil : Expression → Bool
  | Expression.nil => true
  | Expression.NumberLiteral _ => false
  | Expression.Variable _ => false
  | Expression.BinaryExpression l _ r => l.hasNil || r.hasNil

/-- The state reached from `p` by `k` calls of `nextToken`. -/
def Parser.skip : Nat → Parser → Parser
  | 0, p => p
  | k + 1, p => (Parser.skip k p).nextToken

/-- The state reached from `p` by `k` calls of `nextToken` and by printing the
texts `d`, in any interleaving. -/
def Parser.advance (k : Nat) (d : List String) (p : Parser) : Parser :=
  { Parser.skip k p with out := p.out ++ d }

/-- The tokenizer convention assumed for operators: a `PLUS`, `MINUS`,
`ASTERISK`, `SLASH` or `MODULO` token carries its symbol as literal. -/
def Token.hasSymbolLiteral (t : Token) : Bool :=
  match t.Typ with
  | TokenType.PLUS => t.Literal = "+"
  | TokenType.MINUS => t.Literal = "-"
  | TokenType.ASTERISK => t.Literal = "*"
  | TokenType.SLASH => t.Literal = "/"
  | TokenType.MODULO => t.Literal = "%"
  | _ => true

/-- Every `BinaryExpression` inside the expression has one of the five
arithmetic symbols as `Operator`. -/
def Expression.operatorsOK : Expression → Bool
  | Expression.BinaryExpression l op r =>
    (op = "+" || op = "-" || op = "*" || op = "/" || op = "%") &&
      l.operatorsOK && r.operatorsOK
  | _ => true

/-- Every `BinaryExpression` inside the node has one of the five arithmetic
symbols as `Operator`. -/
def Node.operatorsOK : Node → Bool
  | Node.VarDeclaration _ _ => true
  | Node.Assignment _ e => e.operatorsOK
  | Node.PrintStatement e => e.operatorsOK

/-- Whether `e` is `left` wrapped in zero or more `BinaryExpression` nodes, as
left operand, each with an operator among `ops`: the nodes one run of a loop
of `parseExpression` or `parseTerm` builds around its first operand. -/
def wrappedWith (ops : List String) (left : Expression) : Expression → Bool
  | Expression.BinaryExpression l op r =>
    decide (Expression.BinaryExpression l op r = left) ||
      (ops.contains op && wrappedWith ops left l)
  | e => decide (e = left)

/-- All tokens the parser holds or will still receive follow the operator
convention. -/
def Parser.symbolLiterals (p : Parser) : Prop :=
  p.curToken.hasSymbolLiteral = true ∧ p.peekToken.hasSymbolLiteral = true ∧
    ∀ t ∈ p.lex.input, t.hasSymbolLiteral = true

/-- The sequence `x0 o1 x1 ... on xn` split at its additive operators: the
first term, as its first operand and the (multiplicative operator, operand)
pairs after it, and the further terms, each with the additive operator in
front of it. -/
def splitAtAdditive (x0 : Token) :
    List (Token × Token) →
      (Token × List (Token × Token)) × List (Token × Token × List (Token × Token))
  | [] => ((x0, []), [])
  | (o, x) :: r =>
    if o.Typ.isAdditive then
      ((x0, []), (o, x, (splitAtAdditive x r).1.2) :: (splitAtAdditive x r).2)
    else ((x0, (o, x) :: (splitAtAdditive x r).1.2), (splitAtAdditive x r).2)

/-- The tree of one term: its factors left-folded. -/
def termTree (t : Token × List (Token × Token)) : Expression :=
  leftNested (operandExpr t.1) t.2

/-- The terms left-folded with their additive operators onto `left`. -/
def foldTerms (left : Expression)
    (others : List (Token × Token × List (Token × Token))) : Expression :=
  others.foldl
    (fun acc ot => Expression.BinaryExpression acc ot.1.Literal (termTree ot.2)) left

/-- The reference tree of a parenthesis-free sequence `x0 o1 x1 ... on xn`:
split at the additive operators, each run of factors left-folded into a term,
the terms left-folded with the additive operators. -/
def referenceTree (x0 : Token) (chain : List (Token × Token)) : Expression :=
  foldTerms (termTree (splitAtAdditive x0 chain).1) (splitAtAdditive x0 chain).2

/-- The (operator, operand) pairs of a list of terms, each term with the
additive operator in front of it. -/
def termsChain : List (Token × Token × List (Token × Token)) → List (Token × Token)
  | [] => []
  | (o, x, run) :: r => (o, x) :: (run ++ termsChain r)

/-- The items of an in-order traversal: leaves and operator symbols. -/
inductive Item where
  | operand (e : Expression)
  | operator (s : String)
  deriving DecidableEq, Repr

/-- In-order traversal of an expression tree. -/
def Expression.inorder : Expression → List Item
  | Expression.BinaryExpression l op r => l.inorder ++ Item.operator op :: r.inorder
  | e => [Item.operand e]

/-- The traversal item a token of the sequence stands for: the leaf of an
operand, the symbol of an operator. -/
def Token.item (t : Token) : Item :=
  if t.isOperand then Item.operand (operandExpr t) else Item.operator t.Literal

/-- A parenthesis-free statement: a declaration `name : number = NUMBER`, an
assignment `name = x0 o1 x1 ... on xn` or a print `show x0 o1 x1 ... on xn`.
The strings are the identifier and the literals of the fixed tokens. -/
inductive SimpleStatement where
  | declaration (name lc lt la lit : String)
  | assignment (name la : String) (x0 : Token) (chain : List (Token × Token))
  | print (ls : String) (x0 : Token) (chain : List (Token × Token))

/-- The tokens of a parenthesis-free statement. -/
def SimpleStatement.tokens : SimpleStatement → List Token
  | SimpleStatement.declaration name lc lt la lit =>
    [⟨TokenType.IDENT, name⟩, ⟨TokenType.COLON, lc⟩, ⟨TokenType.NATURAL_NUMBER_TYPE, lt⟩,
      ⟨TokenType.ASSIGN, la⟩, ⟨TokenType.NUMBER, lit⟩]
  | SimpleStatement.assignment name la x0 chain =>
    ⟨TokenType.IDENT, name⟩ :: ⟨TokenType.ASSIGN, la⟩ :: x0 :: chainTokens chain
  | SimpleStatement.print ls x0 chain => ⟨TokenType.SHOW, ls⟩ :: x0 :: chainTokens chain

/-- The node of a parenthesis-free statement. -/
def SimpleStatement.node : SimpleStatement → Node
  | SimpleStatement.declaration name _ _ _ lit => Node.VarDeclaration name (atoi lit)
  | SimpleStatement.assignment name _ x0 chain => Node.Assignment name (referenceTree x0 chain)
  | SimpleStatement.print _ x0 chain => Node.PrintStatement (referenceTree x0 chain)

/-- The expression of the statement, if it has one, is a non-empty alternation
of operands and arithmetic operators. -/
def SimpleStatement.wellFormed : SimpleStatement → Bool
  | SimpleStatement.declaration _ _ _ _ _ => true
  | SimpleStatement.assignment _ _ x0 chain =>
    x0.isOperand && chain.all (fun ox => ox.1.Typ.isOperator && ox.2.isOperand)
  | SimpleStatement.print _ x0 chain =>
    x0.isOperand && chain.all (fun ox => ox.1.Typ.isOperator && ox.2.isOperand)

/-- The tokens of a program made of parenthesis-free statements. -/
def statementsTokens : List SimpleStatement → List Token
  | [] => []
  | s :: r => s.tokens ++ statementsTokens r

/-! ## The parser with the pre-advance of `parseFactor` left out

The second parser of the refinement statement: the same functions, with a
`parseFactor` that never advances past an identifier or a number. -/

mutual

/-- Variant without pre-advance, with the state bound carried along:
`parseExpression`, unchanged but for the functions it calls. -/
def parseExpressionNoPreCore (p : Parser) : Parsed p :=
  match parseTermNoPreCore p with
  | ⟨(left, p1), h1⟩ =>
    match parseExpressionLoopNoPreCore left p1 with
    | ⟨r, h2⟩ => ⟨r, Nat.le_trans h2 h1⟩
termination_by 5 * p.size + 4
decreasing_by
  all_goals simp_wf
  · have h : p1.size ≤ p.size := h1
    omega

/-- Variant without pre-advance: the `for` loop of `parseExpression`. -/
def parseExpressionLoopNoPreCore (left : Expression) (p : Parser) : Parsed p :=
  if hc : p.curToken.Typ = TokenType.PLUS ∨ p.curToken.Typ = TokenType.MINUS then
    have hlt : p.nextToken.size < p.size :=
      size_nextToken_lt p (by rcases hc with h | h <;> simp [h])
    match parseTermNoPreCore p.nextToken with
    | ⟨(right, p2), h2⟩ =>
      match parseExpressionLoopNoPreCore
          (Expression.BinaryExpression left p.curToken.Literal right) p2 with
      | ⟨r, h3⟩ => ⟨r, Nat.le_trans h3 (Nat.le_trans h2 (Nat.le_of_lt hlt))⟩
  else ⟨(left, p), Nat.le_refl _⟩
termination_by 5 * p.size + 3
decreasing_by
  all_goals simp_wf
  · omega
  · have h : p2.size ≤ p.nextToken.size := h2
    omega

/-- Variant without pre-advance, with the state bound carried along:
`parseTerm`, unchanged but for the functions it calls. -/
def parseTermNoPreCore (p : Parser) : Parsed p :=
  match parseFactorNoPreCore p with
  | ⟨(left, p1), h1⟩ =>
    match parseTermLoopNoPreCore left p1 with
    | ⟨r, h2⟩ => ⟨r, Nat.le_trans h2 h1⟩
termination_by 5 * p.size + 2
decreasing_by
  all_goals simp_wf
  · have h : p1.size ≤ p.size := h1
    omega

/-- Variant without pre-advance: the `for` loop of `parseTerm`. -/
def parseTermLoopNoPreCore (left : Expression) (p : Parser) : Parsed p :=
  if hc : p.curToken.Typ = TokenType.ASTERISK ∨ p.curToken.Typ = TokenType.SLASH ∨
      p.curToken.Typ = TokenType.MODULO then
    have hlt : p.nextToken.size < p.size :=
      size_nextToken_lt p (by rcases hc with h | h | h <;> simp [h])
    match parseFactorNoPreCore p.nextToken with
    | ⟨(right, p2), h2⟩ =>
      match parseTermLoopNoPreCore
          (Expression.BinaryExpression left p.curToken.Literal right) p2 with
      | ⟨r, h3⟩ => ⟨r, Nat.le_trans h3 (Nat.le_trans h2 (Nat.le_of_lt hlt))⟩
  else ⟨(left, p), Nat.le_refl _⟩
termination_by 5 * p.size + 1
decreasing_by
  all_goals simp_wf
  · omega
  · have h : p2.size ≤ p.nextToken.size := h2
    omega

/-- Variant without pre-advance, with the state bound carried along: a
`parseFactor` that returns an identifier or a number without looking at the
peek token and leaves advancing to the loops of its callers. -/
def parseFactorNoPreCore (p : Parser) : Parsed p :=
  match hty : p.curToken.Typ with
  | TokenType.LPAREN =>
    have hlt : p.nextToken.size < p.size := size_nextToken_lt p (by simp [hty])
    match parseExpressionNoPreCore p.nextToken with
    | ⟨(expr, p2), h2⟩ =>
      let p3 := p2.nextToken
      if p3.curToken.Typ ≠ TokenType.RPAREN then
        ⟨(Expression.nil, p3.print "Expected )\n"),
          Nat.le_trans (size_nextToken_le p2) (Nat.le_trans h2 (Nat.le_of_lt hlt))⟩
      else
        ⟨(expr, p3.nextToken),
          Nat.le_trans (size_nextToken_le p3)
            (Nat.le_trans (size_nextToken_le p2) (Nat.le_trans h2 (Nat.le_of_lt hlt)))⟩
  | TokenType.IDENT =>
    let ident := p.curToken.Literal
    ⟨(Expression.Variable ident, p), Nat.le_refl _⟩
  | TokenType.NUMBER =>
    let value := atoi p.curToken.Literal
    ⟨(Expression.NumberLiteral value, p), Nat.le_refl _⟩
  | _ =>
    ⟨(Expression.nil, p.print ("Unexpected token: " ++ p.curToken.Literal ++ "\n")),
      Nat.le_refl _⟩
termination_by 5 * p.size
decreasing_by
  all_goals simp_wf
  omega

end

/-- The `parseFactor` that omits the pre-advance. -/
def parseFactorNoPre (p : Parser) : Expression × Parser := (parseFactorNoPreCore p).1

/-- The `for` loop of `parseTerm` over the `parseFactor` that omits the
pre-advance. -/
def parseTermLoopNoPre (left : Expression) (p : Parser) : Expression × Parser :=
  (parseTermLoopNoPreCore left p).1

/-- The `parseTerm` over the `parseFactor` that omits the pre-advance. -/
def parseTermNoPre (p : Parser) : Expression × Parser := (parseTermNoPreCore p).1

/-- The `for` loop of `parseExpression` over the `parseFactor` that omits the
pre-advance. -/
def parseExpressionLoopNoPre (left : Expression) (p : Parser) : Expression × Parser :=
  (parseExpressionLoopNoPreCore left p).1

/-- The `parseExpression` over the `parseFactor` that omits the pre-advance. -/
def parseExpressionNoPre (p : Parser) : Expression × Parser := (parseExpressionNoPreCore p).1

theorem parseExpressionNoPre_size_le (p : Parser) :
    (parseExpressionNoPre p).2.size ≤ p.size :=
  (parseExpressionNoPreCore p).2

/-- The `parsePrintStatement` over the `parseFactor` that omits the pre-advance. -/
def parsePrintStatementNoPre (p : Parser) : Option Node × Parser :=
  let p1 := p.nextToken
  let r := parseExpressionNoPre p1
  (some (Node.PrintStatement r.1), r.2)

/-- The `parseAssignmentOrDeclaration` over the `parseFactor` that omits the
pre-advance. -/
def parseAssignmentOrDeclarationNoPre (p : Parser) : Option Node × Parser :=
  let identifier := p.curToken.Literal
  let p1 := p.nextToken
  if p1.curToken.Typ = TokenType.COLON then
    let p2 := p1.nextToken
    if p2.curToken.Typ ≠ TokenType.NATURAL_NUMBER_TYPE then
      (none, p2.print
        ("Expected type of variable (Currently only supports type: number) after colon: "
          ++ p2.curToken.Literal ++ "\n"))
    else
      let p3 := p2.nextToken
      if p3.curToken.Typ ≠ TokenType.ASSIGN then
        (none, p3.print
          ("Expected assignment operator after type declaration: "
            ++ p3.curToken.Literal ++ "\n"))
      else
        let p4 := p3.nextToken
        let value := p4.curToken.Literal
        (some (Node.VarDeclaration identifier (atoi value)), p4)
  else if p1.curToken.Typ = TokenType.ASSIGN then
    let p2 := p1.nextToken
    let r := parseExpressionNoPre p2
    (some (Node.Assignment identifier r.1), r.2)
  else (none, p1)

/-- The `parseStatement` over the `parseFactor` that omits the pre-advance. -/
def parseStatementNoPre (p : Parser) : Option Node × Parser :=
  match p.curToken.Typ with
  | TokenType.IDENT => parseAssignmentOrDeclarationNoPre p
  | TokenType.SHOW => parsePrintStatementNoPre p
  | _ => (none, p.print ("Unknown statement: " ++ p.curToken.Literal ++ "\n"))

theorem parsePrintStatementNoPre_size_le (p : Parser) :
    (parsePrintStatementNoPre p).2.size ≤ p.nextToken.size :=
  parseExpressionNoPre_size_le _

theorem parseAssignmentOrDeclarationNoPre_size_le (p : Parser) :
    (parseAssignmentOrDeclarationNoPre p).2.size ≤ p.nextToken.size := by
  have h2 := size_nextToken_le p.nextToken
  have h3 := size_nextToken_le p.nextToken.nextToken
  have h4 := size_nextToken_le p.nextToken.nextToken.nextToken
  have h5 := parseExpressionNoPre_size_le p.nextToken.nextToken
  unfold parseAssignmentOrDeclarationNoPre
  simp only []
  split
  · split
    · simp only [size_print]; omega
    · split
      · simp only [size_print]; omega
      · dsimp only; omega
  · split <;> dsimp only <;> omega

/-- One round of the statement loop without pre-advance moves the parser
strictly closer to end-of-input. -/
theorem size_parseStatementNoPre_nextToken_lt (p : Parser)
    (h : p.curToken.Typ ≠ TokenType.EOF) :
    (parseStatementNoPre p).2.nextToken.size < p.size := by
  have h1 := size_nextToken_lt p h
  have h2 := size_nextToken_le (parseStatementNoPre p).2
  unfold parseStatementNoPre at *
  split at h2
  · have := parseAssignmentOrDeclarationNoPre_size_le p
    omega
  · have := parsePrintStatementNoPre_size_le p
    omega
  · exact size_nextToken_lt (p.print _) h

/-- The `for` loop of `ParseProgram` over the `parseFactor` that omits the
pre-advance. -/
def ParseProgramLoopNoPre (nodes : List Node) (p : Parser) : List Node × Parser :=
  if h : p.curToken.Typ ≠ TokenType.EOF then
    have _hlt : (parseStatementNoPre p).2.nextToken.size < p.size :=
      size_parseStatementNoPre_nextToken_lt p h
    let r := parseStatementNoPre p
    let nodes1 :=
      match r.1 with
      | some node => nodes ++ [node]
      | none => nodes
    ParseProgramLoopNoPre nodes1 r.2.nextToken
  else (nodes, p)
termination_by p.size

/-- The `ParseProgram` over the `parseFactor` that omits the pre-advance. -/
def ParseProgramNoPre (p : Parser) : List Node × Parser :=
  ParseProgramLoopNoPre [] p

/-- The nodes `ParseProgramNoPre` returns for a fresh parser over the token
sequence `toks`. -/
def programNodesNoPre (toks : List Token) : List Node :=
  (ParseProgramNoPre (NewParser ⟨toks⟩)).1

/-- No identifier or number of the sequence is directly followed by an
arithmetic operator. -/
def noOperandBeforeOperator : List Token → Bool
  | a :: b :: r => !(a.isOperand && b.Typ.isOperator) && noOperandBeforeOperator (b :: r)
  | _ => true

/-- No identifier or number the parser holds or will still receive is directly
followed by an arithmetic operator. -/
def Parser.noOperandBeforeOperator (p : Parser) : Prop :=
  ZwaLang.noOperandBeforeOperator (p.curToken :: p.peekToken :: p.lex.input) = true

/-! ### The source text of the descent, as equations -/

theorem parseExpression_eq (p : Parser) :
    parseExpression p = parseExpressionLoop (parseTerm p).1 (parseTerm p).2 := by
  simp only [parseExpression, parseExpressionLoop, parseTerm]
  rw [parseExpressionCore]

theorem parseExpressionLoop_eq (left : Expression) (p : Parser) :
    parseExpressionLoop left p =
      if p.curToken.Typ = TokenType.PLUS ∨ p.curToken.Typ = TokenType.MINUS then
        parseExpressionLoop
          (Expression.BinaryExpression left p.curToken.Literal (parseTerm p.nextToken).1)
          (parseTerm p.nextToken).2
      else (left, p) := by
  simp only [parseExpressionLoop, parseTerm]
  rw [parseExpressionLoopCore]
  split <;> rfl

theorem parseTerm_eq (p : Parser) :
    parseTerm p = parseTermLoop (parseFactor p).1 (parseFactor p).2 := by
  simp only [parseTerm, parseTermLoop, parseFactor]
  rw [parseTermCore]

theorem parseTermLoop_eq (left : Expression) (p : Parser) :
    parseTermLoop left p =
      if p.curToken.Typ = TokenType.ASTERISK ∨ p.curToken.Typ = TokenType.SLASH ∨
          p.curToken.Typ = TokenType.MODULO then
        parseTermLoop
          (Expression.BinaryExpression left p.curToken.Literal (parseFactor p.nextToken).1)
          (parseFactor p.nextToken).2
      else (left, p) := by
  simp only [parseTermLoop, parseFactor]
  rw [parseTermLoopCore]
  split <;> rfl

theorem parseFactor_eq (p : Parser) :
    parseFactor p =
      match p.curToken.Typ with
      | TokenType.LPAREN =>
        let r := parseExpression p.nextToken
        let p3 := r.2.nextToken
        if p3.curToken.Typ ≠ TokenType.RPAREN then
          (Expression.nil, p3.print "Expected )\n")
        else (r.1, p3.nextToken)
      | TokenType.IDENT =>
        if p.peekTokenIsOperator then (Expression.Variable p.curToken.Literal, p.nextToken)
        else (Expression.Variable p.curToken.Literal, p)
      | TokenType.NUMBER =>
        if p.peekTokenIsOperator then
          (Expression.NumberLiteral (atoi p.curToken.Literal), p.nextToken)
        else (Expression.NumberLiteral (atoi p.curToken.Literal), p)
      | _ =>
        (Expression.nil, p.print ("Unexpected token: " ++ p.curToken.Literal ++ "\n")) := by
  simp only [parseFactor, parseExpression]
  rw [parseFactorCore]
  split <;> simp_all <;> split <;> rfl

theorem NewParser_eq (toks : List Token) : NewParser ⟨toks⟩ = Parser.ofTokens toks [] := by
  match toks with
  | [] => rfl
  | [_] => rfl
  | _ :: _ :: _ => rfl

@[simp]
theorem nextToken_ofTokens_cons (t : Token) (ts : List Token) (o : List String) :
    (Parser.ofTokens (t :: ts) o).nextToken = Parser.ofTokens ts o := by
  match ts with
  | [] => rfl
  | [_] => rfl
  | _ :: _ :: _ => rfl

@[simp]
theorem nextToken_ofTokens_nil (o : List String) :
    (Parser.ofTokens [] o).nextToken = Parser.ofTokens [] o := rfl

@[simp]
theorem curToken_ofTokens_cons (t : Token) (ts : List Token) (o : List String) :
    (Parser.ofTokens (t :: ts) o).curToken = t := by
  cases ts <;> rfl

@[simp]
theorem curToken_ofTokens_nil (o : List String) :
    (Parser.ofTokens [] o).curToken = Token.eof := rfl

@[simp]
theorem peekToken_ofTokens_cons (t u : Token) (ts : List Token) (o : List String) :
    (Parser.ofTokens (t :: u :: ts) o).peekToken = u := rfl

@[simp]
theorem peekToken_ofTokens_single (t : Token) (o : List String) :
    (Parser.ofTokens [t] o).peekToken = Token.eof := rfl

@[simp]
theorem out_ofTokens (ts : List Token) (o : List String) :
    (Parser.ofTokens ts o).out = o := by
  match ts with
  | [] => rfl
  | [_] => rfl
  | _ :: _ :: _ => rfl

@[simp]
theorem print_ofTokens (ts : List Token) (o : List String) (s : String) :
    (Parser.ofTokens ts o).print s = Parser.ofTokens ts (o ++ [s]) := by
  match ts with
  | [] => rfl
  | [_] => rfl
  | _ :: _ :: _ => rfl

@[simp]
theorem Token.eof_Typ : Token.eof.Typ = TokenType.EOF := rfl

@[simp]
theorem Token.eof_Literal : Token.eof.Literal = "" := rfl

/-! ## Induction along the descent -/

theorem parseFactor_size_le (p : Parser) : (parseFactor p).2.size ≤ p.size :=
  (parseFactorCore p).2

theorem parseTerm_size_le (p : Parser) : (parseTerm p).2.size ≤ p.size :=
  (parseTermCore p).2

/-- Induction principle following the call structure of `parseFactor`,
`parseTerm` and `parseExpression` and of their loops. -/
theorem descent_induction {F T E : Parser → Prop} {G H : Expression → Parser → Prop}
    (hF : ∀ p, (p.curToken.Typ = TokenType.LPAREN → E p.nextToken) → F p)
    (hTL : ∀ left p,
      (p.curToken.Typ = TokenType.ASTERISK ∨ p.curToken.Typ = TokenType.SLASH ∨
          p.curToken.Typ = TokenType.MODULO →
        F p.nextToken ∧ ∀ l, G l (parseFactor p.nextToken).2) → G left p)
    (hT : ∀ p, F p → (∀ l, G l (parseFactor p).2) → T p)
    (hEL : ∀ left p,
      (p.curToken.Typ = TokenType.PLUS ∨ p.curToken.Typ = TokenType.MINUS →
        T p.nextToken ∧ ∀ l, H l (parseTerm p.nextToken).2) → H left p)
    (hE : ∀ p, T p → (∀ l, H l (parseTerm p).2) → E p) (p : Parser) :
    F p ∧ (∀ l, G l p) ∧ T p ∧ (∀ l, H l p) ∧ E p := by
  generalize hn : p.size = n
  induction n using Nat.strong_induction_on generalizing p with
  | _ n ih =>
    have below : ∀ q : Parser, q.size < n →
        F q ∧ (∀ l, G l q) ∧ T q ∧ (∀ l, H l q) ∧ E q := fun q hq => ih q.size hq q rfl
    have aF : ∀ q : Parser, q.size = n → F q := fun q hq =>
      hF q (fun hc => (below _ (hq ▸ size_nextToken_lt q (by simp [hc]))).2.2.2.2)
    have aTL : ∀ q : Parser, q.size = n → ∀ l, G l q := fun q hq l =>
      hTL l q (fun hc => by
        have hlt : q.nextToken.size < n :=
          hq ▸ size_nextToken_lt q (by rcases hc with h | h | h <;> simp [h])
        exact ⟨(below _ hlt).1, fun l2 =>
          (below _ (Nat.lt_of_le_of_lt (parseFactor_size_le _) hlt)).2.1 l2⟩)
    have aT : ∀ q : Parser, q.size = n → T q := fun q hq =>
      hT q (aF q hq) (fun l => by
        rcases Nat.lt_or_ge (parseFactor q).2.size n with h | h
        · exact (below _ h).2.1 l
        · exact aTL _ (Nat.le_antisymm (hq ▸ parseFactor_size_le q) h) l)
    have aEL : ∀ q : Parser, q.size = n → ∀ l, H l q := fun q hq l =>
      hEL l q (fun hc => by
        have hlt : q.nextToken.size < n :=
          hq ▸ size_nextToken_lt q (by rcases hc with h | h <;> simp [h])
        exact ⟨(below _ hlt).2.2.1, fun l2 =>
          (below _ (Nat.lt_of_le_of_lt (parseTerm_size_le _) hlt)).2.2.2.1 l2⟩)
    have aE : ∀ q : Parser, q.size = n → E q := fun q hq =>
      hE q (aT q hq) (fun l => by
        rcases Nat.lt_or_ge (parseTerm q).2.size n with h | h
        · exact (below _ h).2.2.2.1 l
        · exact aEL _ (Nat.le_antisymm (hq ▸ parseTerm_size_le q) h) l)
    exact ⟨aF p hn, aTL p hn, aT p hn, aEL p hn, aE p hn⟩

/-! ## Stepping the loops -/

theorem parseExpressionLoop_stop (left : Expression) (p : Parser)
    (h1 : p.curToken.Typ ≠ TokenType.PLUS) (h2 : p.curToken.Typ ≠ TokenType.MINUS) :
    parseExpressionLoop left p = (left, p) := by
  rw [parseExpressionLoop_eq]; simp [h1, h2]

theorem parseExpressionLoop_step (left : Expression) (p : Parser)
    (h : p.curToken.Typ = TokenType.PLUS ∨ p.curToken.Typ = TokenType.MINUS) :
    parseExpressionLoop left p =
      parseExpressionLoop
        (Expression.BinaryExpression left p.curToken.Literal (parseTerm p.nextToken).1)
        (parseTerm p.nextToken).2 := by
  rw [parseExpressionLoop_eq, if_pos h]

theorem parseTermLoop_stop (left : Expression) (p : Parser)
    (h1 : p.curToken.Typ ≠ TokenType.ASTERISK) (h2 : p.curToken.Typ ≠ TokenType.SLASH)
    (h3 : p.curToken.Typ ≠ TokenType.MODULO) :
    parseTermLoop left p = (left, p) := by
  rw [parseTermLoop_eq]; simp [h1, h2, h3]

theorem parseTermLoop_step (left : Expression) (p : Parser)
    (h : p.curToken.Typ = TokenType.ASTERISK ∨ p.curToken.Typ = TokenType.SLASH ∨
      p.curToken.Typ = TokenType.MODULO) :
    parseTermLoop left p =
      parseTermLoop
        (Expression.BinaryExpression left p.curToken.Literal (parseFactor p.nextToken).1)
        (parseFactor p.nextToken).2 := by
  rw [parseTermLoop_eq, if_pos h]

theorem ParseProgramLoop_eq (nodes : List Node) (p : Parser) :
    ParseProgramLoop nodes p =
      if p.curToken.Typ ≠ TokenType.EOF then
        ParseProgramLoop
          (match (parseStatement p).1 with
            | some node => nodes ++ [node]
            | none => nodes)
          (parseStatement p).2.nextToken
      else (nodes, p) := by
  rw [ParseProgramLoop]
  split <;> rfl

theorem ParseProgramLoop_stop (nodes : List Node) (p : Parser)
    (h : p.curToken.Typ = TokenType.EOF) : ParseProgramLoop nodes p = (nodes, p) := by
  rw [ParseProgramLoop_eq]; simp [h]

theorem ParseProgramLoop_step (nodes : List Node) (p : Parser)
    (h : p.curToken.Typ ≠ TokenType.EOF) :
    ParseProgramLoop nodes p =
        ParseProgramLoop
          (match (parseStatement p).1 with
            | some node => nodes ++ [node]
            | none => nodes)
          (parseStatement p).2.nextToken := by
  rw [ParseProgramLoop_eq, if_pos h]

/-! ## Operands and operator kinds -/

theorem peekTokenIsOperator_ofTokens (t : Token) (ts : List Token) (o : List String) :
    (Parser.ofTokens (t :: ts) o).peekTokenIsOperator = startsWithOperator ts := by
  cases ts <;> simp [peekTokenIsOperator, startsWithOperator, TokenType.isOperator]

theorem parseFactor_operand (a : Token) (ts : List Token) (o : List String)
    (ha : a.isOperand = true) :
    parseFactor (Parser.ofTokens (a :: ts) o) =
      (operandExpr a,
        if startsWithOperator ts then Parser.ofTokens ts o else Parser.ofTokens (a :: ts) o) := by
  rw [parseFactor_eq]
  simp only [Token.isOperand, Bool.or_eq_true, decide_eq_true_eq] at ha
  rcases ha with h | h <;>
    simp [h, operandExpr, peekTokenIsOperator_ofTokens] <;> split <;> simp_all

theorem TokenType.isAdditive_iff (t : TokenType) :
    t.isAdditive = true ↔ t = TokenType.PLUS ∨ t = TokenType.MINUS := by
  cases t <;> simp [TokenType.isAdditive]

theorem TokenType.isMultiplicative_iff (t : TokenType) :
    t.isMultiplicative = true ↔
      t = TokenType.ASTERISK ∨ t = TokenType.SLASH ∨ t = TokenType.MODULO := by
  cases t <;> simp [TokenType.isMultiplicative]

theorem TokenType.isOperator_of_isAdditive {t : TokenType} (h : t.isAdditive = true) :
    t.isOperator = true := by
  cases t <;> simp_all [TokenType.isAdditive, TokenType.isOperator]

theorem TokenType.isOperator_of_isMultiplicative {t : TokenType}
    (h : t.isMultiplicative = true) : t.isOperator = true := by
  cases t <;> simp_all [TokenType.isMultiplicative, TokenType.isOperator]

theorem TokenType.not_isMultiplicative_of_isAdditive {t : TokenType}
    (h : t.isAdditive = true) : t.isMultiplicative = false := by
  cases t <;> simp_all [TokenType.isMultiplicative, TokenType.isAdditive]

theorem Token.not_isAdditive_of_isOperand {t : Token} (h : t.isOperand = true) :
    t.Typ.isAdditive = false := by
  rcases t with ⟨ty, l⟩
  cases ty <;> simp_all [Token.isOperand, TokenType.isAdditive]

theorem Token.not_isMultiplicative_of_isOperand {t : Token} (h : t.isOperand = true) :
    t.Typ.isMultiplicative = false := by
  rcases t with ⟨ty, l⟩
  cases ty <;> simp_all [Token.isOperand, TokenType.isMultiplicative]

theorem parseExpressionLoop_of_not_isAdditive (left : Expression) (p : Parser)
    (h : p.curToken.Typ.isAdditive = false) : parseExpressionLoop left p = (left, p) := by
  have h2 := (TokenType.isAdditive_iff p.curToken.Typ).not.1 (by simp [h])
  exact parseExpressionLoop_stop left p (fun e => h2 (Or.inl e)) (fun e => h2 (Or.inr e))

theorem parseExpressionLoop_of_isAdditive (left : Expression) (p : Parser)
    (h : p.curToken.Typ.isAdditive = true) :
    parseExpressionLoop left p =
      parseExpressionLoop
        (Expression.BinaryExpression left p.curToken.Literal (parseTerm p.nextToken).1)
        (parseTerm p.nextToken).2 :=
  parseExpressionLoop_step left p ((TokenType.isAdditive_iff _).1 h)

theorem parseTermLoop_of_not_isMultiplicative (left : Expression) (p : Parser)
    (h : p.curToken.Typ.isMultiplicative = false) : parseTermLoop left p = (left, p) := by
  have h2 := (TokenType.isMultiplicative_iff p.curToken.Typ).not.1 (by simp [h])
  exact parseTermLoop_stop left p (fun e => h2 (Or.inl e)) (fun e => h2 (Or.inr (Or.inl e)))
    (fun e => h2 (Or.inr (Or.inr e)))

theorem parseTermLoop_of_isMultiplicative (left : Expression) (p : Parser)
    (h : p.curToken.Typ.isMultiplicative = true) :
    parseTermLoop left p =
      parseTermLoop
        (Expression.BinaryExpression left p.curToken.Literal (parseFactor p.nextToken).1)
        (parseFactor p.nextToken).2 :=
  parseTermLoop_step left p ((TokenType.isMultiplicative_iff _).1 h)

/-- An operand followed by an arithmetic operator: the factor is the operand
and the operator becomes the current token. -/
theorem parseFactor_operand_operator (a b : Token) (ts : List Token) (o : List String)
    (ha : a.isOperand = true) (hb : b.Typ.isOperator = true) :
    parseFactor (Parser.ofTokens (a :: b :: ts) o) =
      (operandExpr a, Parser.ofTokens (b :: ts) o) := by
  rw [parseFactor_operand a _ o ha, if_pos (by simpa [startsWithOperator] using hb)]

/-- An operand not followed by an arithmetic operator: the factor is the
operand and the parser stays on it. -/
theorem parseFactor_operand_last (a : Token) (ts : List Token) (o : List String)
    (ha : a.isOperand = true) (hts : startsWithOperator ts = false) :
    parseFactor (Parser.ofTokens (a :: ts) o) =
      (operandExpr a, Parser.ofTokens (a :: ts) o) := by
  rw [parseFactor_operand a ts o ha, hts]; rfl

/-! ## Earlier output is carried along -/

@[simp]
theorem prepend_nextToken (o : List String) (p : Parser) :
    (Parser.prepend o p).nextToken = Parser.prepend o p.nextToken := rfl

@[simp]
theorem prepend_curToken (o : List String) (p : Parser) :
    (Parser.prepend o p).curToken = p.curToken := rfl

@[simp]
theorem prepend_peekTokenIsOperator (o : List String) (p : Parser) :
    (Parser.prepend o p).peekTokenIsOperator = p.peekTokenIsOperator := rfl

@[simp]
theorem prepend_print (o : List String) (p : Parser) (s : String) :
    (Parser.prepend o p).print s = Parser.prepend o (p.print s) := by
  simp [Parser.prepend, Parser.print, List.append_assoc]

@[simp]
theorem prepend_out (o : List String) (p : Parser) :
    (Parser.prepend o p).out = o ++ p.out := rfl

theorem prepend_ofTokens (o : List String) (ts : List Token) :
    Parser.prepend o (Parser.ofTokens ts []) = Parser.ofTokens ts o := by
  match ts with
  | [] => simp [Parser.prepend, Parser.ofTokens]
  | [_] => simp [Parser.prepend, Parser.ofTokens]
  | _ :: _ :: _ => simp [Parser.prepend, Parser.ofTokens]

/-- Text printed earlier does not influence the descent: it is carried along
in front of what the descent prints. -/
theorem descent_prepend (o : List String) (p : Parser) :
    (parseFactor (Parser.prepend o p) =
        ((parseFactor p).1, Parser.prepend o (parseFactor p).2)) ∧
    (∀ l, parseTermLoop l (Parser.prepend o p) =
        ((parseTermLoop l p).1, Parser.prepend o (parseTermLoop l p).2)) ∧
    (parseTerm (Parser.prepend o p) =
        ((parseTerm p).1, Parser.prepend o (parseTerm p).2)) ∧
    (∀ l, parseExpressionLoop l (Parser.prepend o p) =
        ((parseExpressionLoop l p).1, Parser.prepend o (parseExpressionLoop l p).2)) ∧
    (parseExpression (Parser.prepend o p) =
        ((parseExpression p).1, Parser.prepend o (parseExpression p).2)) := by
  refine descent_induction
    (F := fun p => parseFactor (Parser.prepend o p) =
        ((parseFactor p).1, Parser.prepend o (parseFactor p).2))
    (G := fun l p => parseTermLoop l (Parser.prepend o p) =
        ((parseTermLoop l p).1, Parser.prepend o (parseTermLoop l p).2))
    (T := fun p => parseTerm (Parser.prepend o p) =
        ((parseTerm p).1, Parser.prepend o (parseTerm p).2))
    (H := fun l p => parseExpressionLoop l (Parser.prepend o p) =
        ((parseExpressionLoop l p).1, Parser.prepend o (parseExpressionLoop l p).2))
    (E := fun p => parseExpression (Parser.prepend o p) =
        ((parseExpression p).1, Parser.prepend o (parseExpression p).2))
    ?_ ?_ ?_ ?_ ?_ p
  · intro p ih
    rw [parseFactor_eq, parseFactor_eq p]
    simp only [prepend_curToken, prepend_nextToken, prepend_peekTokenIsOperator]
    split
    · rename_i hc
      rw [ih hc]
      simp only [prepend_curToken, prepend_nextToken, prepend_print]
      split <;> rfl
    · split <;> rfl
    · split <;> rfl
    · simp only [prepend_print]
  · intro l p ih
    rw [parseTermLoop_eq, parseTermLoop_eq l p]
    simp only [prepend_curToken, prepend_nextToken]
    split
    · rename_i hc
      rw [(ih hc).1, (ih hc).2]
    · rfl
  · intro p hF hTL
    rw [parseTerm_eq, parseTerm_eq p, hF, hTL]
  · intro l p ih
    rw [parseExpressionLoop_eq, parseExpressionLoop_eq l p]
    simp only [prepend_curToken, prepend_nextToken]
    split
    · rename_i hc
      rw [(ih hc).1, (ih hc).2]
    · rfl
  · intro p hT hEL
    rw [parseExpression_eq, parseExpression_eq p, hT, hEL]

theorem parseExpression_prepend (o : List String) (p : Parser) :
    parseExpression (Parser.prepend o p) =
      ((parseExpression p).1, Parser.prepend o (parseExpression p).2) :=
  (descent_prepend o p).2.2.2.2

theorem parseStatement_prepend (o : List String) (p : Parser) :
    parseStatement (Parser.prepend o p) =
      ((parseStatement p).1, Parser.prepend o (parseStatement p).2) := by
  unfold parseStatement
  simp only [prepend_curToken]
  split
  · unfold parseAssignmentOrDeclaration
    simp only [prepend_curToken, prepend_nextToken, parseExpression_prepend, prepend_print]
    split
    · split
      · rfl
      · split <;> rfl
    · split <;> rfl
  · unfold parsePrintStatement
    simp only [prepend_nextToken, parseExpression_prepend]
  · simp only [prepend_print]

/-- The statement loop carries earlier output and earlier nodes along
unchanged. -/
theorem ParseProgramLoop_frame (nodes : List Node) (o : List String) (p : Parser) :
    ParseProgramLoop nodes (Parser.prepend o p) =
      (nodes ++ (ParseProgramLoop [] p).1, Parser.prepend o (ParseProgramLoop [] p).2) := by
  generalize hn : p.size = n
  induction n using Nat.strong_induction_on generalizing p nodes o with
  | _ n ih =>
    rw [ParseProgramLoop_eq, ParseProgramLoop_eq [] p]
    simp only [prepend_curToken, parseStatement_prepend, prepend_nextToken]
    split
    · rename_i hc
      have hlt := size_parseStatement_nextToken_lt p hc
      have hp : ∀ q : Parser, Parser.prepend [] q = q := fun q => by
        simp [Parser.prepend]
      have h1 := fun ns => ih _ (hn ▸ hlt) ns o (parseStatement p).2.nextToken rfl
      have h2 := fun ns => ih _ (hn ▸ hlt) ns [] (parseStatement p).2.nextToken rfl
      simp only [hp] at h2
      cases (parseStatement p).1 with
      | none => exact h1 _
      | some node =>
        show ParseProgramLoop (nodes ++ [node]) _ =
          (nodes ++ (ParseProgramLoop ([] ++ [node]) _).1, _)
        rw [h1, h2 ([] ++ [node])]
        simp
    · simp [Parser.prepend]

theorem ParseProgramLoop_ofTokens (nodes : List Node) (o : List String) (ts : List Token) :
    (ParseProgramLoop nodes (Parser.ofTokens ts o)).1 = nodes ++ programNodes ts ∧
    (ParseProgramLoop nodes (Parser.ofTokens ts o)).2.out = o ++ programOutput ts := by
  rw [← prepend_ofTokens, ParseProgramLoop_frame]
  simp [programNodes, programOutput, ParseProgram, NewParser_eq]

/-! ## Number literals -/

theorem digitsValue_append (cs : List Char) (c : Char) :
    digitsValue (cs ++ [c]) = 10 * digitsValue cs + (c.toNat - 48) := by
  simp [digitsValue, List.foldl_append]

theorem digitsValue_eq_numeralValue (cs : List Char) :
    digitsValue cs = numeralValue cs.reverse := by
  induction cs using List.reverseRecOn with
  | nil => rfl
  | append_singleton cs c ih =>
    rw [digitsValue_append, List.reverse_append, ih]
    simp [numeralValue, Nat.add_comm]

theorem toNat_of_isDigit {c : Char} (h : c.isDigit = true) :
    48 ≤ c.toNat ∧ c.toNat ≤ 57 := by
  simp only [Char.isDigit, Bool.and_eq_true, decide_eq_true_eq] at h
  exact ⟨h.1, h.2⟩

theorem skipSpace_of_isDigit {c : Char} (cs : List Char) (h : c.isDigit = true) :
    skipSpace (c :: cs) = some (c :: cs) := by
  have h2 := toNat_of_isDigit h
  have hnl : c ≠ '\n' := by rintro rfl; simp [Char.isDigit] at h
  have hsp : isScanSpace c = false := by
    simp only [isScanSpace, Bool.or_eq_false_iff, Bool.and_eq_false_imp, decide_eq_true_eq,
      decide_eq_false_iff_not]
    omega
  simp [skipSpace, hnl, hsp]

theorem takeWhile_eq_self_of_all {α : Type} (f : α → Bool) (l : List α)
    (h : ∀ c ∈ l, f c = true) : l.takeWhile f = l := by
  induction l with
  | nil => rfl
  | cons a l ih =>
    rw [List.takeWhile_cons, h a (List.mem_cons_self a l),
      if_pos rfl, ih (fun c hc => h c (List.mem_cons_of_mem a hc))]

/-- On a literal denoting `n`, `atoi` answers `n`. -/
theorem atoi_of_denotes {lit : String} {n : Int} (h : Denotes lit n) : atoi lit = n := by
  obtain ⟨hne, hd, hv, hr⟩ := h
  unfold atoi
  cases hl : lit.toList with
  | nil => exact absurd hl hne
  | cons c cs =>
    rw [hl] at hd hv
    have hc := hd c (List.mem_cons_self c cs)
    have hplus : c ≠ '+' := by rintro rfl; simp [Char.isDigit] at hc
    have hminus : c ≠ '-' := by rintro rfl; simp [Char.isDigit] at hc
    have hdrop := skipSpace_of_isDigit cs hc
    have hsign : scanSign (c :: cs) = (false, c :: cs) := by
      unfold scanSign
      split
      · rename_i h; exact absurd (List.cons.inj h).1 hplus
      · rename_i h; exact absurd (List.cons.inj h).1 hminus
      · rfl
    have htake := takeWhile_eq_self_of_all Char.isDigit (c :: cs) hd
    have hval : (digitsValue (c :: cs) : Int) = n := by
      rw [digitsValue_eq_numeralValue]; exact hv
    have hnn : (0 : Int) ≤ n := hval ▸ Int.ofNat_nonneg _
    simp only [hdrop, hsign, htake, hval]
    simp
    intro h1
    norm_num at hr
    omega

/-! ## Statements -/

theorem parseStatement_unknown (p : Parser) (h1 : p.curToken.Typ ≠ TokenType.IDENT)
    (h2 : p.curToken.Typ ≠ TokenType.SHOW) :
    parseStatement p =
      (none, p.print ("Unknown statement: " ++ p.curToken.Literal ++ "\n")) := by
  unfold parseStatement
  split
  · rename_i h; exact absurd h h1
  · rename_i h; exact absurd h h2
  · rfl

/-! ## Chains of operators of one precedence level -/

theorem parseFactor_chain (x : Token) (chain : List (Token × Token)) (rest : List Token)
    (out : List String) (hx : x.isOperand = true)
    (hops : ∀ ox ∈ chain, ox.1.Typ.isOperator = true)
    (hrest : startsWithOperator rest = false) :
    parseFactor (Parser.ofTokens (x :: (chainTokens chain ++ rest)) out) =
      (operandExpr x, afterOperand x chain rest out) := by
  cases chain with
  | nil => exact parseFactor_operand_last x _ _ hx hrest
  | cons ox r =>
    obtain ⟨o, y⟩ := ox
    exact parseFactor_operand_operator x o _ _ hx (hops (o, y) (List.mem_cons_self _ _))

theorem parseTermLoop_chain (chain : List (Token × Token)) (rest : List Token)
    (out : List String) (hrest : startsWithOperator rest = false) :
    ∀ (left : Expression) (x : Token), x.isOperand = true →
      (∀ ox ∈ chain, ox.1.Typ.isMultiplicative = true ∧ ox.2.isOperand = true) →
      parseTermLoop left (afterOperand x chain rest out) =
        (leftNested left chain, Parser.ofTokens (lastOperand x chain :: rest) out) := by
  induction chain with
  | nil =>
    intro left x hx _
    exact parseTermLoop_of_not_isMultiplicative _ _
      (by simpa [afterOperand] using Token.not_isMultiplicative_of_isOperand hx)
  | cons ox r ih =>
    obtain ⟨o, y⟩ := ox
    intro left x _ hch
    have hoy := hch (o, y) (List.mem_cons_self _ _)
    have hr : ∀ ox ∈ r, ox.1.Typ.isMultiplicative = true ∧ ox.2.isOperand = true :=
      fun ox h => hch ox (List.mem_cons_of_mem _ h)
    rw [parseTermLoop_of_isMultiplicative _ _ (by simpa [afterOperand, chainTokens] using hoy.1)]
    simp only [afterOperand, chainTokens, List.cons_append, nextToken_ofTokens_cons,
      curToken_ofTokens_cons]
    rw [parseFactor_chain y r rest out hoy.2
      (fun ox h => TokenType.isOperator_of_isMultiplicative (hr ox h).1) hrest]
    exact ih _ y hoy.2 hr

/-- A term `x0 o1 x1 ... on xn` whose operators are all multiplicative. -/
theorem parseTerm_chain (x0 : Token) (chain : List (Token × Token)) (rest : List Token)
    (out : List String) (hx : x0.isOperand = true)
    (hch : ∀ ox ∈ chain, ox.1.Typ.isMultiplicative = true ∧ ox.2.isOperand = true)
    (hrest : startsWithOperator rest = false) :
    parseTerm (Parser.ofTokens (x0 :: (chainTokens chain ++ rest)) out) =
      (leftNested (operandExpr x0) chain,
        Parser.ofTokens (lastOperand x0 chain :: rest) out) := by
  rw [parseTerm_eq, parseFactor_chain x0 chain rest out hx
    (fun ox h => TokenType.isOperator_of_isMultiplicative (hch ox h).1) hrest]
  exact parseTermLoop_chain chain rest out hrest _ x0 hx hch

/-- A single operand as a term, in front of additive operators. -/
theorem parseTerm_operand_chain (x : Token) (chain : List (Token × Token))
    (rest : List Token) (out : List String) (hx : x.isOperand = true)
    (hops : ∀ ox ∈ chain, ox.1.Typ.isAdditive = true)
    (hrest : startsWithOperator rest = false) :
    parseTerm (Parser.ofTokens (x :: (chainTokens chain ++ rest)) out) =
      (operandExpr x, afterOperand x chain rest out) := by
  rw [parseTerm_eq, parseFactor_chain x chain rest out hx
    (fun ox h => TokenType.isOperator_of_isAdditive (hops ox h)) hrest]
  apply parseTermLoop_of_not_isMultiplicative
  cases chain with
  | nil => simpa [afterOperand] using Token.not_isMultiplicative_of_isOperand hx
  | cons ox r =>
    obtain ⟨o, y⟩ := ox
    simpa [afterOperand, chainTokens] using
      TokenType.not_isMultiplicative_of_isAdditive (hops (o, y) (List.mem_cons_self _ _))

theorem parseExpressionLoop_chain (chain : List (Token × Token)) (rest : List Token)
    (out : List String) (hrest : startsWithOperator rest = false) :
    ∀ (left : Expression) (x : Token), x.isOperand = true →
      (∀ ox ∈ chain, ox.1.Typ.isAdditive = true ∧ ox.2.isOperand = true) →
      parseExpressionLoop left (afterOperand x chain rest out) =
        (leftNested left chain, Parser.ofTokens (lastOperand x chain :: rest) out) := by
  induction chain with
  | nil =>
    intro left x hx _
    exact parseExpressionLoop_of_not_isAdditive _ _
      (by simpa [afterOperand] using Token.not_isAdditive_of_isOperand hx)
  | cons ox r ih =>
    obtain ⟨o, y⟩ := ox
    intro left x _ hch
    have hoy := hch (o, y) (List.mem_cons_self _ _)
    have hr : ∀ ox ∈ r, ox.1.Typ.isAdditive = true ∧ ox.2.isOperand = true :=
      fun ox h => hch ox (List.mem_cons_of_mem _ h)
    rw [parseExpressionLoop_of_isAdditive _ _ (by simpa [afterOperand, chainTokens] using hoy.1)]
    simp only [afterOperand, chainTokens, List.cons_append, nextToken_ofTokens_cons,
      curToken_ofTokens_cons]
    rw [parseTerm_operand_chain y r rest out hoy.2 (fun ox h => (hr ox h).1) hrest]
    exact ih _ y hoy.2 hr

/-- An expression `x0 o1 x1 ... on xn` whose operators are all additive. -/
theorem parseExpression_chain (x0 : Token) (chain : List (Token × Token))
    (rest : List Token) (out : List String) (hx : x0.isOperand = true)
    (hch : ∀ ox ∈ chain, ox.1.Typ.isAdditive = true ∧ ox.2.isOperand = true)
    (hrest : startsWithOperator rest = false) :
    parseExpression (Parser.ofTokens (x0 :: (chainTokens chain ++ rest)) out) =
      (leftNested (operandExpr x0) chain,
        Parser.ofTokens (lastOperand x0 chain :: rest) out) := by
  rw [parseExpression_eq, parseTerm_operand_chain x0 chain rest out hx
    (fun ox h => (hch ox h).1) hrest]
  exact parseExpressionLoop_chain chain rest out hrest _ x0 hx hch

/-! ## Diagnostics and absent expressions -/

/-- The descent prints a diagnostic exactly when the expression it returns is
absent or has an absent part; what it prints is appended to the output. -/
theorem descent_hasNil (p : Parser) :
    (∃ d, (parseFactor p).2.out = p.out ++ d ∧
        ((parseFactor p).1.hasNil = true ↔ d ≠ [])) ∧
    (∀ l, ∃ d, (parseTermLoop l p).2.out = p.out ++ d ∧
        ((parseTermLoop l p).1.hasNil = true ↔ (l.hasNil = true ∨ d ≠ []))) ∧
    (∃ d, (parseTerm p).2.out = p.out ++ d ∧
        ((parseTerm p).1.hasNil = true ↔ d ≠ [])) ∧
    (∀ l, ∃ d, (parseExpressionLoop l p).2.out = p.out ++ d ∧
        ((parseExpressionLoop l p).1.hasNil = true ↔ (l.hasNil = true ∨ d ≠ []))) ∧
    (∃ d, (parseExpression p).2.out = p.out ++ d ∧
        ((parseExpression p).1.hasNil = true ↔ d ≠ [])) := by
  have hnext : ∀ q : Parser, q.nextToken.out = q.out := fun _ => rfl
  have hprint : ∀ (q : Parser) (s : String), (q.print s).out = q.out ++ [s] := fun _ _ => rfl
  refine descent_induction
    (F := fun p => ∃ d, (parseFactor p).2.out = p.out ++ d ∧
        ((parseFactor p).1.hasNil = true ↔ d ≠ []))
    (G := fun l p => ∃ d, (parseTermLoop l p).2.out = p.out ++ d ∧
        ((parseTermLoop l p).1.hasNil = true ↔ (l.hasNil = true ∨ d ≠ [])))
    (T := fun p => ∃ d, (parseTerm p).2.out = p.out ++ d ∧
        ((parseTerm p).1.hasNil = true ↔ d ≠ []))
    (H := fun l p => ∃ d, (parseExpressionLoop l p).2.out = p.out ++ d ∧
        ((parseExpressionLoop l p).1.hasNil = true ↔ (l.hasNil = true ∨ d ≠ [])))
    (E := fun p => ∃ d, (parseExpression p).2.out = p.out ++ d ∧
        ((parseExpression p).1.hasNil = true ↔ d ≠ []))
    ?_ ?_ ?_ ?_ ?_ p
  · intro p ih
    rw [parseFactor_eq]
    split
    · rename_i hc
      obtain ⟨d, hd, hn⟩ := ih hc
      simp only []
      split
      · exact ⟨d ++ ["Expected )\n"], by
          simp [hprint, hnext, hd, hnext p, List.append_assoc], by simp [Expression.hasNil]⟩
      · exact ⟨d, by simp [hnext, hd, hnext p], hn⟩
    · split <;> exact ⟨[], by simp [hnext], by simp [Expression.hasNil]⟩
    · split <;> exact ⟨[], by simp [hnext], by simp [Expression.hasNil]⟩
    · exact ⟨[_], hprint _ _, by simp [Expression.hasNil]⟩
  · intro l p ih
    rw [parseTermLoop_eq]
    split
    · rename_i hc
      obtain ⟨⟨d1, hd1, hn1⟩, h2⟩ := ih hc
      obtain ⟨d2, hd2, hn2⟩ := h2
        (Expression.BinaryExpression l p.curToken.Literal (parseFactor p.nextToken).1)
      refine ⟨d1 ++ d2, by rw [hd2, hd1, hnext, List.append_assoc], ?_⟩
      rw [hn2]
      simp only [Expression.hasNil, Bool.or_eq_true, hn1, ne_eq, List.append_eq_nil, not_and_or,
        or_assoc]
    · exact ⟨[], by simp, by simp⟩
  · intro p hF hTL
    obtain ⟨d1, hd1, hn1⟩ := hF
    obtain ⟨d2, hd2, hn2⟩ := hTL (parseFactor p).1
    rw [parseTerm_eq]
    refine ⟨d1 ++ d2, by rw [hd2, hd1, List.append_assoc], ?_⟩
    rw [hn2, hn1]
    simp only [ne_eq, List.append_eq_nil, not_and_or]
  · intro l p ih
    rw [parseExpressionLoop_eq]
    split
    · rename_i hc
      obtain ⟨⟨d1, hd1, hn1⟩, h2⟩ := ih hc
      obtain ⟨d2, hd2, hn2⟩ := h2
        (Expression.BinaryExpression l p.curToken.Literal (parseTerm p.nextToken).1)
      refine ⟨d1 ++ d2, by rw [hd2, hd1, hnext, List.append_assoc], ?_⟩
      rw [hn2]
      simp only [Expression.hasNil, Bool.or_eq_true, hn1, ne_eq, List.append_eq_nil, not_and_or,
        or_assoc]
    · exact ⟨[], by simp, by simp⟩
  · intro p hT hEL
    obtain ⟨d1, hd1, hn1⟩ := hT
    obtain ⟨d2, hd2, hn2⟩ := hEL (parseTerm p).1
    rw [parseExpression_eq]
    refine ⟨d1 ++ d2, by rw [hd2, hd1, List.append_assoc], ?_⟩
    rw [hn2, hn1]
    simp only [ne_eq, List.append_eq_nil, not_and_or]

/-! ## The parser only moves forward -/

theorem skip_out (k : Nat) (p : Parser) : (Parser.skip k p).out = p.out := by
  induction k with
  | zero => rfl
  | succ k ih => simpa [Parser.skip, Parser.nextToken] using ih

theorem skip_setOut (k : Nat) (p : Parser) (o : List String) :
    Parser.skip k { p with out := o } = { Parser.skip k p with out := o } := by
  induction k with
  | zero => rfl
  | succ k ih => simp [Parser.skip, ih, Parser.nextToken]

theorem skip_add (j k : Nat) (p : Parser) :
    Parser.skip k (Parser.skip j p) = Parser.skip (j + k) p := by
  induction k with
  | zero => rfl
  | succ k ih => simp [Parser.skip, ← Nat.add_assoc, ih]

theorem advance_zero (p : Parser) : Parser.advance 0 [] p = p := by
  simp [Parser.advance, Parser.skip]

theorem nextToken_advance (k : Nat) (d : List String) (p : Parser) :
    (Parser.advance k d p).nextToken = Parser.advance (k + 1) d p := by
  simp [Parser.advance, Parser.skip, Parser.nextToken]

theorem print_advance (k : Nat) (d : List String) (p : Parser) (s : String) :
    (Parser.advance k d p).print s = Parser.advance k (d ++ [s]) p := by
  simp [Parser.advance, Parser.print, List.append_assoc]

theorem advance_advance (j k : Nat) (c d : List String) (p : Parser) :
    Parser.advance k d (Parser.advance j c p) = Parser.advance (j + k) (c ++ d) p := by
  simp [Parser.advance, skip_setOut, skip_add, List.append_assoc]

theorem nextToken_ofTokens (ts : List Token) (o : List String) :
    (Parser.ofTokens ts o).nextToken = Parser.ofTokens ts.tail o := by
  cases ts <;> simp

theorem skip_ofTokens (k : Nat) (ts : List Token) (o : List String) :
    Parser.skip k (Parser.ofTokens ts o) = Parser.ofTokens (ts.drop k) o := by
  induction k with
  | zero => rfl
  | succ k ih => rw [Parser.skip, ih, nextToken_ofTokens, List.tail_drop]

theorem advance_ofTokens (k : Nat) (d : List String) (ts : List Token) (o : List String) :
    Parser.advance k d (Parser.ofTokens ts o) = Parser.ofTokens (ts.drop k) (o ++ d) := by
  rw [Parser.advance, skip_ofTokens, out_ofTokens]
  match ts.drop k with
  | [] => rfl
  | [_] => rfl
  | _ :: _ :: _ => rfl

/-- The descent only calls `nextToken` and prints: the state it returns is the
state it started in, advanced. -/
theorem descent_advance (p : Parser) :
    (∃ k d, (parseFactor p).2 = Parser.advance k d p) ∧
    (∀ l, ∃ k d, (parseTermLoop l p).2 = Parser.advance k d p) ∧
    (∃ k d, (parseTerm p).2 = Parser.advance k d p) ∧
    (∀ l, ∃ k d, (parseExpressionLoop l p).2 = Parser.advance k d p) ∧
    (∃ k d, (parseExpression p).2 = Parser.advance k d p) := by
  have h1 : ∀ q : Parser, q.nextToken = Parser.advance 1 [] q := fun q => by
    rw [← nextToken_advance, advance_zero]
  refine descent_induction
    (F := fun p => ∃ k d, (parseFactor p).2 = Parser.advance k d p)
    (G := fun l p => ∃ k d, (parseTermLoop l p).2 = Parser.advance k d p)
    (T := fun p => ∃ k d, (parseTerm p).2 = Parser.advance k d p)
    (H := fun l p => ∃ k d, (parseExpressionLoop l p).2 = Parser.advance k d p)
    (E := fun p => ∃ k d, (parseExpression p).2 = Parser.advance k d p)
    ?_ ?_ ?_ ?_ ?_ p
  · intro p ih
    rw [parseFactor_eq]
    split
    · rename_i hc
      obtain ⟨k, d, h⟩ := ih hc
      simp only []
      split
      · exact ⟨_, _, by rw [h, h1 p, advance_advance, nextToken_advance, print_advance]⟩
      · exact ⟨_, _, by
          rw [h, h1 p, advance_advance, nextToken_advance, nextToken_advance]⟩
    · split
      · exact ⟨1, [], h1 p⟩
      · exact ⟨0, [], (advance_zero p).symm⟩
    · split
      · exact ⟨1, [], h1 p⟩
      · exact ⟨0, [], (advance_zero p).symm⟩
    · exact ⟨0, _, by rw [← print_advance, advance_zero]⟩
  · intro l p ih
    rw [parseTermLoop_eq]
    split
    · rename_i hc
      obtain ⟨⟨k1, d1, e1⟩, h2⟩ := ih hc
      obtain ⟨k2, d2, e2⟩ := h2
        (Expression.BinaryExpression l p.curToken.Literal (parseFactor p.nextToken).1)
      exact ⟨_, _, by rw [e2, e1, h1 p, advance_advance, advance_advance]⟩
    · exact ⟨0, [], (advance_zero p).symm⟩
  · intro p hF hG
    obtain ⟨k1, d1, e1⟩ := hF
    obtain ⟨k2, d2, e2⟩ := hG (parseFactor p).1
    rw [parseTerm_eq]
    exact ⟨_, _, by rw [e2, e1, advance_advance]⟩
  · intro l p ih
    rw [parseExpressionLoop_eq]
    split
    · rename_i hc
      obtain ⟨⟨k1, d1, e1⟩, h2⟩ := ih hc
      obtain ⟨k2, d2, e2⟩ := h2
        (Expression.BinaryExpression l p.curToken.Literal (parseTerm p.nextToken).1)
      exact ⟨_, _, by rw [e2, e1, h1 p, advance_advance, advance_advance]⟩
    · exact ⟨0, [], (advance_zero p).symm⟩
  · intro p hT hH
    obtain ⟨k1, d1, e1⟩ := hT
    obtain ⟨k2, d2, e2⟩ := hH (parseTerm p).1
    rw [parseExpression_eq]
    exact ⟨_, _, by rw [e2, e1, advance_advance]⟩

theorem parseExpression_advance (p : Parser) :
    ∃ k d, (parseExpression p).2 = Parser.advance k d p :=
  (descent_advance p).2.2.2.2

/-- A statement leaves the parser in the state it started in, advanced. -/
theorem parseStatement_advance (p : Parser) :
    ∃ k d, (parseStatement p).2 = Parser.advance k d p := by
  have h1 : ∀ q : Parser, q.nextToken = Parser.advance 1 [] q := fun q => by
    rw [← nextToken_advance, advance_zero]
  unfold parseStatement
  split
  · unfold parseAssignmentOrDeclaration
    simp only []
    split
    · split
      · exact ⟨_, _, by rw [h1 p, nextToken_advance, print_advance]⟩
      · split
        · exact ⟨_, _, by rw [h1 p, nextToken_advance, nextToken_advance, print_advance]⟩
        · exact ⟨_, _, by
            rw [h1 p, nextToken_advance, nextToken_advance, nextToken_advance]⟩
    · split
      · obtain ⟨k, d, e⟩ := parseExpression_advance p.nextToken.nextToken
        exact ⟨_, _, by
          simp only []
          rw [e, h1 p, nextToken_advance, advance_advance]⟩
      · exact ⟨1, [], h1 p⟩
  · obtain ⟨k, d, e⟩ := parseExpression_advance p.nextToken
    exact ⟨_, _, by
      simp only [parsePrintStatement]
      rw [e, h1 p, advance_advance]⟩
  · exact ⟨0, _, by simp only []; rw [← print_advance, advance_zero]⟩

/-! ## Where the nodes of a program come from -/

/-- Every node the statement loop adds is the node of one `parseStatement`
call, made in the state the loop started in, advanced. -/
theorem ParseProgramLoop_mem (nodes : List Node) (p : Parser) (n : Node)
    (hn : n ∈ (ParseProgramLoop nodes p).1) :
    n ∈ nodes ∨ ∃ k d, (parseStatement (Parser.advance k d p)).1 = some n := by
  generalize hs : p.size = m at hn
  induction m using Nat.strong_induction_on generalizing p nodes with
  | _ m ih =>
    rw [ParseProgramLoop_eq] at hn
    split at hn
    · rename_i hc
      have hlt := size_parseStatement_nextToken_lt p hc
      obtain ⟨k, d, e⟩ := parseStatement_advance p
      rcases ih _ (hs ▸ hlt) _ _ hn rfl with h | ⟨k2, d2, h⟩
      · cases hst : (parseStatement p).1 with
        | none => rw [hst] at h; exact Or.inl h
        | some node =>
          rw [hst] at h
          rcases List.mem_append.1 h with h | h
          · exact Or.inl h
          · rw [List.mem_singleton] at h
            exact Or.inr ⟨0, [], by rw [advance_zero, hst, h]⟩
      · rw [e, nextToken_advance, advance_advance] at h
        exact Or.inr ⟨_, _, h⟩
    · exact Or.inl hn

/-- Every node of a program is the node of the statement that starts at some
position of the token sequence. -/
theorem programNodes_mem (toks : List Token) (n : Node) (hn : n ∈ programNodes toks) :
    ∃ k, (parseStatement (Parser.ofTokens (toks.drop k) [])).1 = some n := by
  unfold programNodes ParseProgram at hn
  rw [NewParser_eq] at hn
  rcases ParseProgramLoop_mem [] _ n hn with h | ⟨k, d, h⟩
  · cases h
  · refine ⟨k, ?_⟩
    rw [advance_ofTokens, List.nil_append, ← prepend_ofTokens, parseStatement_prepend] at h
    exact h

/-- The only statement that yields a `VarDeclaration` is
`name : number = v`; the value is `atoi` of the literal of `v`, the token after
`=` (end-of-input when nothing follows). -/
theorem parseStatement_eq_VarDeclaration (ts : List Token) (name : String) (v : Int)
    (h : (parseStatement (Parser.ofTokens ts [])).1 = some (Node.VarDeclaration name v)) :
    ∃ lc lt la post,
      ts = ⟨TokenType.IDENT, name⟩ :: ⟨TokenType.COLON, lc⟩ ::
          ⟨TokenType.NATURAL_NUMBER_TYPE, lt⟩ :: ⟨TokenType.ASSIGN, la⟩ :: post ∧
        v = atoi (post.headD Token.eof).Literal := by
  unfold parseStatement at h
  split at h
  · rename_i h0
    unfold parseAssignmentOrDeclaration at h
    simp only [] at h
    split at h
    · rename_i h1
      split at h
      · cases h
      · rename_i h2
        split at h
        · cases h
        · rename_i h3
          simp only [ne_eq, Decidable.not_not] at h2 h3
          simp only [Option.some.injEq, Node.VarDeclaration.injEq] at h
          rcases ts with _ | ⟨⟨y0, l0⟩, _ | ⟨⟨y1, l1⟩, _ | ⟨⟨y2, l2⟩, _ | ⟨⟨y3, l3⟩, post⟩⟩⟩⟩
          · simp at h0
          · simp at h1
          · simp at h2
          · simp at h3
          · simp only [curToken_ofTokens_cons, nextToken_ofTokens_cons] at h0 h1 h2 h3 h
            subst h0 h1 h2 h3
            refine ⟨l1, l2, l3, post, ?_, ?_⟩
            · rw [h.1]
            · rw [← h.2]
              cases post <;> simp
    · split at h
      · simp at h
      · cases h
  · simp [parsePrintStatement] at h
  · cases h

/-- The first statement of a program: when `parseStatement` on `toks` returns
`r` and one more advance leaves the parser on `rest` with `d` printed, the
program's nodes are `r` followed by the nodes of `rest`, and its output is `d`
followed by the output of `rest`. -/
theorem program_step (toks rest : List Token) (d : List String) (r : Option Node)
    (hc : (toks.headD Token.eof).Typ ≠ TokenType.EOF)
    (h1 : (parseStatement (Parser.ofTokens toks [])).1 = r)
    (h2 : (parseStatement (Parser.ofTokens toks [])).2.nextToken = Parser.ofTokens rest d) :
    programNodes toks = r.toList ++ programNodes rest ∧
      programOutput toks = d ++ programOutput rest := by
  have hcur : (Parser.ofTokens toks []).curToken.Typ ≠ TokenType.EOF := by
    cases toks with
    | nil => exact absurd rfl hc
    | cons t ts => simpa using hc
  have hloop := ParseProgramLoop_ofTokens r.toList d rest
  unfold programNodes programOutput ParseProgram
  rw [NewParser_eq, ParseProgramLoop_step _ _ hcur, h1, h2]
  cases r <;> simpa using hloop

/-! ## Operators of the expressions built -/

theorem symbolLiterals_nextToken (p : Parser) (h : p.symbolLiterals) :
    p.nextToken.symbolLiterals := by
  rcases p with ⟨⟨l⟩, c, k, o⟩
  obtain ⟨_, hk, hl⟩ := h
  cases l with
  | nil => exact ⟨hk, rfl, by simp [Parser.nextToken, Lexer.NextToken]⟩
  | cons t ts =>
    exact ⟨hk, hl t (List.mem_cons_self _ _), fun u hu => hl u (List.mem_cons_of_mem _ hu)⟩

theorem symbolLiterals_advance (k : Nat) (d : List String) (p : Parser)
    (h : p.symbolLiterals) : (Parser.advance k d p).symbolLiterals := by
  have hs : (Parser.skip k p).symbolLiterals := by
    induction k with
    | zero => exact h
    | succ k ih => exact symbolLiterals_nextToken _ ih
  exact hs

theorem symbolLiterals_ofTokens (ts : List Token) (o : List String)
    (h : ∀ t ∈ ts, t.hasSymbolLiteral = true) : (Parser.ofTokens ts o).symbolLiterals := by
  match ts, h with
  | [], _ => exact ⟨rfl, rfl, by simp [Parser.ofTokens]⟩
  | [t], h => exact ⟨h t (by simp), rfl, by simp [Parser.ofTokens]⟩
  | t :: u :: r, h =>
    exact ⟨h t (by simp), h u (by simp),
      fun v hv => h v (by simp [Parser.ofTokens] at hv; simp [hv])⟩

theorem wrappedWith_self (ops : List String) (left : Expression) :
    wrappedWith ops left left = true := by
  cases left <;> simp [wrappedWith]

theorem wrappedWith_of_wrap (ops : List String) (left l r e : Expression) (op : String)
    (hop : ops.contains op = true)
    (h : wrappedWith ops (Expression.BinaryExpression l op r) e = true)
    (hl : wrappedWith ops left l = true) : wrappedWith ops left e = true := by
  induction e with
  | nil => simp [wrappedWith] at h
  | NumberLiteral v => simp [wrappedWith] at h
  | Variable n => simp [wrappedWith] at h
  | BinaryExpression a o b iha _ =>
    simp only [wrappedWith, Bool.or_eq_true, decide_eq_true_eq, Bool.and_eq_true] at h ⊢
    rcases h with h | ⟨ho, ha⟩
    · cases h
      exact Or.inr ⟨hop, hl⟩
    · exact Or.inr ⟨ho, iha ha⟩

theorem multiplicative_literal (t : Token) (h : t.hasSymbolLiteral = true)
    (hc : t.Typ = TokenType.ASTERISK ∨ t.Typ = TokenType.SLASH ∨ t.Typ = TokenType.MODULO) :
    t.Literal = "*" ∨ t.Literal = "/" ∨ t.Literal = "%" := by
  rcases t with ⟨ty, lit⟩
  rcases hc with hc | hc | hc <;> simp only at hc <;> subst hc <;>
    simp_all [Token.hasSymbolLiteral]

theorem additive_literal (t : Token) (h : t.hasSymbolLiteral = true)
    (hc : t.Typ = TokenType.PLUS ∨ t.Typ = TokenType.MINUS) :
    t.Literal = "+" ∨ t.Literal = "-" := by
  rcases t with ⟨ty, lit⟩
  rcases hc with hc | hc <;> simp only at hc <;> subst hc <;>
    simp_all [Token.hasSymbolLiteral]

/-- Under the operator convention the descent builds only `BinaryExpression`
nodes with arithmetic symbols; the loop of `parseTerm` wraps its operand in
nodes carrying `*`, `/` or `%`, the loop of `parseExpression` in nodes carrying
`+` or `-`. -/
theorem descent_operators (p : Parser) :
    (p.symbolLiterals → (parseFactor p).1.operatorsOK = true) ∧
    (∀ l, p.symbolLiterals →
      (l.operatorsOK = true → (parseTermLoop l p).1.operatorsOK = true) ∧
        wrappedWith ["*", "/", "%"] l (parseTermLoop l p).1 = true) ∧
    (p.symbolLiterals → (parseTerm p).1.operatorsOK = true) ∧
    (∀ l, p.symbolLiterals →
      (l.operatorsOK = true → (parseExpressionLoop l p).1.operatorsOK = true) ∧
        wrappedWith ["+", "-"] l (parseExpressionLoop l p).1 = true) ∧
    (p.symbolLiterals → (parseExpression p).1.operatorsOK = true) := by
  have hadv : ∀ (q r : Parser), (∃ k d, r = Parser.advance k d q) → q.symbolLiterals →
      r.symbolLiterals := fun q r ⟨k, d, e⟩ hq => e ▸ symbolLiterals_advance k d q hq
  refine descent_induction
    (F := fun p => p.symbolLiterals → (parseFactor p).1.operatorsOK = true)
    (G := fun l p => p.symbolLiterals →
      (l.operatorsOK = true → (parseTermLoop l p).1.operatorsOK = true) ∧
        wrappedWith ["*", "/", "%"] l (parseTermLoop l p).1 = true)
    (T := fun p => p.symbolLiterals → (parseTerm p).1.operatorsOK = true)
    (H := fun l p => p.symbolLiterals →
      (l.operatorsOK = true → (parseExpressionLoop l p).1.operatorsOK = true) ∧
        wrappedWith ["+", "-"] l (parseExpressionLoop l p).1 = true)
    (E := fun p => p.symbolLiterals → (parseExpression p).1.operatorsOK = true)
    ?_ ?_ ?_ ?_ ?_ p
  · intro p ih hs
    rw [parseFactor_eq]
    split
    · rename_i hc
      simp only []
      split
      · rfl
      · exact ih hc (symbolLiterals_nextToken p hs)
    · split <;> rfl
    · split <;> rfl
    · rfl
  · intro l p ih hs
    rw [parseTermLoop_eq]
    split
    · rename_i hc
      obtain ⟨hF, hG⟩ := ih hc
      have hs1 := symbolLiterals_nextToken p hs
      have hs2 := hadv _ _ (descent_advance p.nextToken).1 hs1
      have hlit := multiplicative_literal p.curToken hs.1 hc
      obtain ⟨h1, h2⟩ := hG
        (Expression.BinaryExpression l p.curToken.Literal (parseFactor p.nextToken).1) hs2
      refine ⟨fun hl => h1 ?_, ?_⟩
      · rcases hlit with h | h | h <;> simp [Expression.operatorsOK, h, hl, hF hs1]
      · refine wrappedWith_of_wrap _ l l _ _ _ ?_ h2 (wrappedWith_self _ _)
        rcases hlit with h | h | h <;> simp [h]
    · exact ⟨fun hl => hl, wrappedWith_self _ _⟩
  · intro p hF hG hs
    rw [parseTerm_eq]
    exact (hG _ (hadv _ _ (descent_advance p).1 hs)).1 (hF hs)
  · intro l p ih hs
    rw [parseExpressionLoop_eq]
    split
    · rename_i hc
      obtain ⟨hT, hH⟩ := ih hc
      have hs1 := symbolLiterals_nextToken p hs
      have hs2 := hadv _ _ (descent_advance p.nextToken).2.2.1 hs1
      have hlit := additive_literal p.curToken hs.1 hc
      obtain ⟨h1, h2⟩ := hH
        (Expression.BinaryExpression l p.curToken.Literal (parseTerm p.nextToken).1) hs2
      refine ⟨fun hl => h1 ?_, ?_⟩
      · rcases hlit with h | h <;> simp [Expression.operatorsOK, h, hl, hT hs1]
      · refine wrappedWith_of_wrap _ l l _ _ _ ?_ h2 (wrappedWith_self _ _)
        rcases hlit with h | h <;> simp [h]
    · exact ⟨fun hl => hl, wrappedWith_self _ _⟩
  · intro p hT hH hs
    rw [parseExpression_eq]
    exact (hH _ (hadv _ _ (descent_advance p).2.2.1 hs)).1 (hT hs)

theorem parseStatement_operators (p : Parser) (hs : p.symbolLiterals) (n : Node)
    (h : (parseStatement p).1 = some n) : n.operatorsOK = true := by
  have hE := fun q hq => (descent_operators q).2.2.2.2 hq
  unfold parseStatement at h
  split at h
  · unfold parseAssignmentOrDeclaration at h
    simp only [] at h
    split at h
    · split at h
      · cases h
      · split at h
        · cases h
        · cases h; rfl
    · split at h
      · cases h
        exact hE _ (symbolLiterals_nextToken _ (symbolLiterals_nextToken _ hs))
      · cases h
  · cases h
    exact hE _ (symbolLiterals_nextToken _ hs)
  · cases h

/-! ## Termination -/

theorem size_ofTokens_le (ts : List Token) (o : List String) :
    (Parser.ofTokens ts o).size ≤ ts.length := by
  match ts with
  | [] => simp [Parser.ofTokens, Parser.size]
  | [t] => simp [Parser.ofTokens, Parser.size]; split <;> omega
  | t :: u :: r => simp [Parser.ofTokens, Parser.size]; split <;> split <;> omega

/-- The statement loop stops on end-of-input, having added at most one node
per token that was ahead of it. -/
theorem ParseProgramLoop_end (nodes : List Node) (p : Parser) :
    (ParseProgramLoop nodes p).2.curToken.Typ = TokenType.EOF ∧
      (ParseProgramLoop nodes p).1.length ≤ nodes.length + p.size := by
  generalize hs : p.size = m
  induction m using Nat.strong_induction_on generalizing p nodes with
  | _ m ih =>
    rw [ParseProgramLoop_eq]
    split
    · rename_i hc
      have hlt := size_parseStatement_nextToken_lt p hc
      obtain ⟨h1, h2⟩ := ih _ (hs ▸ hlt)
        (match (parseStatement p).1 with
          | some node => nodes ++ [node]
          | none => nodes) _ rfl
      refine ⟨h1, Nat.le_trans h2 ?_⟩
      cases (parseStatement p).1 <;> simp <;> omega
    · rename_i hc
      exact ⟨by simpa using hc, Nat.le_add_right _ _⟩

/-! ## Parenthesis-free expressions of mixed precedence -/

theorem lastOperand_append (x : Token) (a b : List (Token × Token)) :
    lastOperand x (a ++ b) = lastOperand (lastOperand x a) b := by
  induction a generalizing x with
  | nil => rfl
  | cons ox r ih => obtain ⟨o, y⟩ := ox; exact ih y

theorem chainTokens_append (a b : List (Token × Token)) :
    chainTokens (a ++ b) = chainTokens a ++ chainTokens b := by
  induction a with
  | nil => rfl
  | cons ox r ih => obtain ⟨o, y⟩ := ox; simp [chainTokens, ih]

/-- The loop of `parseTerm` over a run of multiplicative operators, in front
of a chain `more` that is empty or begins with an additive operator. -/
theorem parseTermLoop_run (run more : List (Token × Token)) (rest : List Token)
    (out : List String) (hrest : startsWithOperator rest = false)
    (hmore : ∀ ox ∈ more, ox.1.Typ.isOperator = true)
    (hhead : ∀ ox ∈ more.head?, ox.1.Typ.isAdditive = true) :
    ∀ (left : Expression) (x : Token), x.isOperand = true →
      (∀ ox ∈ run, ox.1.Typ.isMultiplicative = true ∧ ox.2.isOperand = true) →
      parseTermLoop left (afterOperand x (run ++ more) rest out) =
        (leftNested left run, afterOperand (lastOperand x run) more rest out) := by
  induction run with
  | nil =>
    intro left x hx _
    apply parseTermLoop_of_not_isMultiplicative
    cases more with
    | nil => simpa [afterOperand] using Token.not_isMultiplicative_of_isOperand hx
    | cons ox r =>
      obtain ⟨o, y⟩ := ox
      simpa [afterOperand, chainTokens] using
        TokenType.not_isMultiplicative_of_isAdditive (hhead (o, y) (by simp))
  | cons ox r ih =>
    obtain ⟨o, y⟩ := ox
    intro left x _ hrun
    have hoy := hrun (o, y) (List.mem_cons_self _ _)
    have hr : ∀ ox ∈ r, ox.1.Typ.isMultiplicative = true ∧ ox.2.isOperand = true :=
      fun ox h => hrun ox (List.mem_cons_of_mem _ h)
    have hst : afterOperand x ((o, y) :: r ++ more) rest out =
        Parser.ofTokens (o :: y :: (chainTokens (r ++ more) ++ rest)) out := rfl
    rw [hst, parseTermLoop_of_isMultiplicative _ _ (by simpa using hoy.1)]
    simp only [nextToken_ofTokens_cons, curToken_ofTokens_cons]
    rw [parseFactor_chain y (r ++ more) rest out hoy.2 (fun ox h => by
      rcases List.mem_append.1 h with h | h
      · exact TokenType.isOperator_of_isMultiplicative (hr ox h).1
      · exact hmore ox h) hrest]
    exact ih _ y hoy.2 hr

theorem TokenType.isMultiplicative_of_isOperator {t : TokenType}
    (h : t.isOperator = true) (ha : t.isAdditive = false) : t.isMultiplicative = true := by
  cases t <;> simp_all [TokenType.isOperator, TokenType.isAdditive,
    TokenType.isMultiplicative]

theorem lastOperand_isOperand (x : Token) (chain : List (Token × Token))
    (hx : x.isOperand = true) (h : ∀ ox ∈ chain, ox.2.isOperand = true) :
    (lastOperand x chain).isOperand = true := by
  induction chain generalizing x with
  | nil => exact hx
  | cons ox r ih =>
    obtain ⟨o, y⟩ := ox
    exact ih y (h (o, y) (List.mem_cons_self _ _)) (fun ox hm => h ox (List.mem_cons_of_mem _ hm))

theorem termsChain_isOperator (others : List (Token × Token × List (Token × Token)))
    (h : ∀ ot ∈ others, ot.1.Typ.isAdditive = true ∧ ot.2.1.isOperand = true ∧
      ∀ ox ∈ ot.2.2, ox.1.Typ.isMultiplicative = true ∧ ox.2.isOperand = true) :
    ∀ ox ∈ termsChain others, ox.1.Typ.isOperator = true := by
  induction others with
  | nil => intro ox hm; cases hm
  | cons ot r ih =>
    obtain ⟨o, x, run⟩ := ot
    have h0 := h (o, x, run) (List.mem_cons_self _ _)
    intro ox hm
    simp only [termsChain, List.mem_cons, List.mem_append] at hm
    rcases hm with hm | hm | hm
    · subst hm; exact TokenType.isOperator_of_isAdditive h0.1
    · exact TokenType.isOperator_of_isMultiplicative (h0.2.2 ox hm).1
    · exact ih (fun ot hr => h ot (List.mem_cons_of_mem _ hr)) ox hm

theorem termsChain_head_isAdditive (others : List (Token × Token × List (Token × Token)))
    (h : ∀ ot ∈ others, ot.1.Typ.isAdditive = true ∧ ot.2.1.isOperand = true ∧
      ∀ ox ∈ ot.2.2, ox.1.Typ.isMultiplicative = true ∧ ox.2.isOperand = true) :
    ∀ ox ∈ (termsChain others).head?, ox.1.Typ.isAdditive = true := by
  cases others with
  | nil => intro ox hm; cases hm
  | cons ot r =>
    obtain ⟨o, x, run⟩ := ot
    intro ox hm
    simp only [termsChain, List.head?_cons, Option.mem_def, Option.some.injEq] at hm
    subst hm
    exact (h (o, x, run) (List.mem_cons_self _ _)).1

/-- The loop of `parseExpression` over a list of terms, each with its additive
operator in front. -/
theorem parseExpressionLoop_terms (others : List (Token × Token × List (Token × Token)))
    (rest : List Token) (out : List String) (hrest : startsWithOperator rest = false) :
    ∀ (left : Expression) (z : Token), z.isOperand = true →
      (∀ ot ∈ others, ot.1.Typ.isAdditive = true ∧ ot.2.1.isOperand = true ∧
        ∀ ox ∈ ot.2.2, ox.1.Typ.isMultiplicative = true ∧ ox.2.isOperand = true) →
      parseExpressionLoop left (afterOperand z (termsChain others) rest out) =
        (foldTerms left others,
          Parser.ofTokens (lastOperand z (termsChain others) :: rest) out) := by
  induction others with
  | nil =>
    intro left z hz _
    exact parseExpressionLoop_of_not_isAdditive _ _
      (by simpa [afterOperand, termsChain] using Token.not_isAdditive_of_isOperand hz)
  | cons ot r ih =>
    obtain ⟨o, x, run⟩ := ot
    intro left z _ hwf
    have h0 := hwf (o, x, run) (List.mem_cons_self _ _)
    have hr := fun ot hm => hwf ot (List.mem_cons_of_mem (o, x, run) hm)
    have hops := termsChain_isOperator r hr
    have hhead := termsChain_head_isAdditive r hr
    have hst : afterOperand z (termsChain ((o, x, run) :: r)) rest out =
        Parser.ofTokens (o :: x :: (chainTokens (run ++ termsChain r) ++ rest)) out := rfl
    rw [hst, parseExpressionLoop_of_isAdditive _ _ (by simpa using h0.1)]
    simp only [nextToken_ofTokens_cons, curToken_ofTokens_cons]
    rw [parseTerm_eq, parseFactor_chain x (run ++ termsChain r) rest out h0.2.1 (fun ox h => by
      rcases List.mem_append.1 h with h | h
      · exact TokenType.isOperator_of_isMultiplicative (h0.2.2 ox h).1
      · exact hops ox h) hrest,
      parseTermLoop_run run (termsChain r) rest out hrest hops hhead _ x h0.2.1 h0.2.2,
      ih _ _ (lastOperand_isOperand x run h0.2.1 (fun ox h => (h0.2.2 ox h).2)) hr]
    simp only [termsChain, lastOperand, lastOperand_append]
    rfl

/-- What `splitAtAdditive` yields on a chain of operators and operands: a
first run of multiplicative pairs and well-formed further terms that, put
together again, are the chain. -/
theorem splitAtAdditive_spec (chain : List (Token × Token)) :
    ∀ x0 : Token, (∀ ox ∈ chain, ox.1.Typ.isOperator = true ∧ ox.2.isOperand = true) →
      (splitAtAdditive x0 chain).1.1 = x0 ∧
      chain = (splitAtAdditive x0 chain).1.2 ++ termsChain (splitAtAdditive x0 chain).2 ∧
      (∀ ox ∈ (splitAtAdditive x0 chain).1.2,
        ox.1.Typ.isMultiplicative = true ∧ ox.2.isOperand = true) ∧
      (∀ ot ∈ (splitAtAdditive x0 chain).2,
        ot.1.Typ.isAdditive = true ∧ ot.2.1.isOperand = true ∧
          ∀ ox ∈ ot.2.2, ox.1.Typ.isMultiplicative = true ∧ ox.2.isOperand = true) := by
  induction chain with
  | nil => intro x0 _; simp [splitAtAdditive, termsChain]
  | cons ox r ih =>
    obtain ⟨o, x⟩ := ox
    intro x0 h
    have h0 := h (o, x) (List.mem_cons_self _ _)
    obtain ⟨_, e2, e3, e4⟩ := ih x (fun ox hm => h ox (List.mem_cons_of_mem _ hm))
    by_cases ha : o.Typ.isAdditive = true
    · have hs : splitAtAdditive x0 ((o, x) :: r) =
          ((x0, []), (o, x, (splitAtAdditive x r).1.2) :: (splitAtAdditive x r).2) := by
        simp [splitAtAdditive, ha]
      rw [hs]
      refine ⟨rfl, ?_, ?_, ?_⟩
      · show (o, x) :: r = [] ++ (o, x) :: ((splitAtAdditive x r).1.2 ++
          termsChain (splitAtAdditive x r).2)
        rw [← e2]; rfl
      · intro ox hm; cases hm
      · intro ot hm
        rcases List.mem_cons.1 hm with hm | hm
        · subst hm; exact ⟨ha, h0.2, e3⟩
        · exact e4 ot hm
    · have hm := TokenType.isMultiplicative_of_isOperator h0.1 (by simpa using ha)
      have hs : splitAtAdditive x0 ((o, x) :: r) =
          ((x0, (o, x) :: (splitAtAdditive x r).1.2), (splitAtAdditive x r).2) := by
        simp [splitAtAdditive, ha]
      rw [hs]
      refine ⟨rfl, ?_, ?_, e4⟩
      · show (o, x) :: r = (o, x) :: ((splitAtAdditive x r).1.2 ++
          termsChain (splitAtAdditive x r).2)
        rw [← e2]
      · intro ox hmem
        rcases List.mem_cons.1 hmem with hmem | hmem
        · subst hmem; exact ⟨hm, h0.2⟩
        · exact e3 ox hmem

/-- A parenthesis-free expression with operators of both levels parses to its
reference tree and leaves the parser on the last operand. -/
theorem parseExpression_mixed (x0 : Token) (chain : List (Token × Token))
    (rest : List Token) (out : List String) (hx : x0.isOperand = true)
    (hch : ∀ ox ∈ chain, ox.1.Typ.isOperator = true ∧ ox.2.isOperand = true)
    (hrest : startsWithOperator rest = false) :
    parseExpression (Parser.ofTokens (x0 :: (chainTokens chain ++ rest)) out) =
      (referenceTree x0 chain, Parser.ofTokens (lastOperand x0 chain :: rest) out) := by
  obtain ⟨e1, e2, e3, e4⟩ := splitAtAdditive_spec chain x0 hch
  have hops := termsChain_isOperator _ e4
  have hhead := termsChain_head_isAdditive _ e4
  rw [parseExpression_eq, parseTerm_eq, parseFactor_chain x0 chain rest out hx
    (fun ox h => (hch ox h).1) hrest]
  conv_lhs => rw [e2]
  rw [parseTermLoop_run _ _ rest out hrest hops hhead _ x0 hx e3,
    parseExpressionLoop_terms _ rest out hrest _ _
      (lastOperand_isOperand x0 _ hx (fun ox h => (e3 ox h).2)) e4,
    ← lastOperand_append, ← e2]
  simp only [referenceTree, termTree, e1]

theorem inorder_operandExpr (x : Token) (hx : x.isOperand = true) :
    (operandExpr x).inorder = [x.item] := by
  rcases x with ⟨ty, l⟩
  cases ty <;> simp_all [Token.isOperand, operandExpr, Expression.inorder, Token.item]

theorem item_of_isOperator (o : Token) (ho : o.Typ.isOperator = true) :
    o.item = Item.operator o.Literal := by
  rcases o with ⟨ty, l⟩
  cases ty <;> simp_all [TokenType.isOperator, Token.item, Token.isOperand]

theorem inorder_leftNested (run : List (Token × Token))
    (h : ∀ ox ∈ run, ox.1.Typ.isOperator = true ∧ ox.2.isOperand = true) :
    ∀ e : Expression,
      (leftNested e run).inorder = e.inorder ++ (chainTokens run).map Token.item := by
  induction run with
  | nil => intro e; simp [leftNested, chainTokens]
  | cons ox r ih =>
    obtain ⟨o, x⟩ := ox
    intro e
    have h0 := h (o, x) (List.mem_cons_self _ _)
    have hr := ih (fun ox hm => h ox (List.mem_cons_of_mem _ hm))
      (Expression.BinaryExpression e o.Literal (operandExpr x))
    simp only [leftNested, List.foldl_cons] at hr ⊢
    rw [hr]
    simp [Expression.inorder, chainTokens, inorder_operandExpr x h0.2,
      item_of_isOperator o h0.1]

theorem inorder_foldTerms (others : List (Token × Token × List (Token × Token)))
    (h : ∀ ot ∈ others, ot.1.Typ.isAdditive = true ∧ ot.2.1.isOperand = true ∧
      ∀ ox ∈ ot.2.2, ox.1.Typ.isMultiplicative = true ∧ ox.2.isOperand = true) :
    ∀ e : Expression,
      (foldTerms e others).inorder =
        e.inorder ++ (chainTokens (termsChain others)).map Token.item := by
  induction others with
  | nil => intro e; simp [foldTerms, termsChain, chainTokens]
  | cons ot r ih =>
    obtain ⟨o, x, run⟩ := ot
    intro e
    have h0 := h (o, x, run) (List.mem_cons_self _ _)
    have hr := ih (fun ot hm => h ot (List.mem_cons_of_mem _ hm))
      (Expression.BinaryExpression e o.Literal (termTree (x, run)))
    have hrun := inorder_leftNested run
      (fun ox hm => ⟨TokenType.isOperator_of_isMultiplicative (h0.2.2 ox hm).1,
        (h0.2.2 ox hm).2⟩) (operandExpr x)
    simp only [foldTerms, List.foldl_cons] at hr ⊢
    rw [hr]
    simp [Expression.inorder, termsChain, chainTokens, chainTokens_append, termTree, hrun,
      inorder_operandExpr x h0.2.1,
      item_of_isOperator o (TokenType.isOperator_of_isAdditive h0.1)]

/-- The in-order traversal of the reference tree is the token sequence. -/
theorem inorder_referenceTree (x0 : Token) (chain : List (Token × Token))
    (hx : x0.isOperand = true)
    (hch : ∀ ox ∈ chain, ox.1.Typ.isOperator = true ∧ ox.2.isOperand = true) :
    (referenceTree x0 chain).inorder = (x0 :: chainTokens chain).map Token.item := by
  obtain ⟨e1, e2, e3, e4⟩ := splitAtAdditive_spec chain x0 hch
  have hrun := inorder_leftNested _
    (fun ox hm => ⟨TokenType.isOperator_of_isMultiplicative (e3 ox hm).1, (e3 ox hm).2⟩)
    (operandExpr x0)
  rw [referenceTree, inorder_foldTerms _ e4, termTree, e1, hrun, inorder_operandExpr x0 hx]
  conv_rhs => rw [e2]
  simp [chainTokens_append]

/-! ## Parenthesis-free statements -/

theorem startsWithOperator_tokens_append (s : SimpleStatement) (ts : List Token) :
    startsWithOperator (s.tokens ++ ts) = false := by
  cases s <;> rfl

theorem wellFormed_chain {x0 : Token} {chain : List (Token × Token)}
    (h : (x0.isOperand && chain.all (fun ox => ox.1.Typ.isOperator && ox.2.isOperand)) = true) :
    x0.isOperand = true ∧
      ∀ ox ∈ chain, ox.1.Typ.isOperator = true ∧ ox.2.isOperand = true := by
  simp only [Bool.and_eq_true, List.all_eq_true] at h
  exact h

/-- One parenthesis-free statement in front of `rest`. -/
theorem program_simpleStatement (s : SimpleStatement) (rest : List Token)
    (hwf : s.wellFormed = true) (hrest : startsWithOperator rest = false) :
    programNodes (s.tokens ++ rest) = s.node :: programNodes rest ∧
      programOutput (s.tokens ++ rest) = programOutput rest := by
  have key : (parseStatement (Parser.ofTokens (s.tokens ++ rest) [])).1 = some s.node ∧
      (parseStatement (Parser.ofTokens (s.tokens ++ rest) [])).2.nextToken =
        Parser.ofTokens rest [] := by
    cases s with
    | declaration name lc lt la lit =>
      simp [SimpleStatement.tokens, SimpleStatement.node, parseStatement,
        parseAssignmentOrDeclaration]
    | assignment name la x0 chain =>
      obtain ⟨hx, hch⟩ := wellFormed_chain hwf
      have hE := parseExpression_mixed x0 chain rest [] hx hch hrest
      simp [SimpleStatement.tokens, SimpleStatement.node, parseStatement,
        parseAssignmentOrDeclaration, hE]
    | print ls x0 chain =>
      obtain ⟨hx, hch⟩ := wellFormed_chain hwf
      have hE := parseExpression_mixed x0 chain rest [] hx hch hrest
      simp [SimpleStatement.tokens, SimpleStatement.node, parseStatement,
        parsePrintStatement, hE]
  have h := program_step (s.tokens ++ rest) rest [] (some s.node)
    (by cases s <;> simp [SimpleStatement.tokens]) key.1 key.2
  simpa using h

/-! ## The parser without pre-advance, as equations -/

theorem parseExpressionNoPre_eq (p : Parser) :
    parseExpressionNoPre p =
      parseExpressionLoopNoPre (parseTermNoPre p).1 (parseTermNoPre p).2 := by
  simp only [parseExpressionNoPre, parseExpressionLoopNoPre, parseTermNoPre]
  rw [parseExpressionNoPreCore]

theorem parseExpressionLoopNoPre_eq (left : Expression) (p : Parser) :
    parseExpressionLoopNoPre left p =
      if p.curToken.Typ = TokenType.PLUS ∨ p.curToken.Typ = TokenType.MINUS then
        parseExpressionLoopNoPre
          (Expression.BinaryExpression left p.curToken.Literal (parseTermNoPre p.nextToken).1)
          (parseTermNoPre p.nextToken).2
      else (left, p) := by
  simp only [parseExpressionLoopNoPre, parseTermNoPre]
  rw [parseExpressionLoopNoPreCore]
  split <;> rfl

theorem parseTermNoPre_eq (p : Parser) :
    parseTermNoPre p = parseTermLoopNoPre (parseFactorNoPre p).1 (parseFactorNoPre p).2 := by
  simp only [parseTermNoPre, parseTermLoopNoPre, parseFactorNoPre]
  rw [parseTermNoPreCore]

theorem parseTermLoopNoPre_eq (left : Expression) (p : Parser) :
    parseTermLoopNoPre left p =
      if p.curToken.Typ = TokenType.ASTERISK ∨ p.curToken.Typ = TokenType.SLASH ∨
          p.curToken.Typ = TokenType.MODULO then
        parseTermLoopNoPre
          (Expression.BinaryExpression left p.curToken.Literal
            (parseFactorNoPre p.nextToken).1)
          (parseFactorNoPre p.nextToken).2
      else (left, p) := by
  simp only [parseTermLoopNoPre, parseFactorNoPre]
  rw [parseTermLoopNoPreCore]
  split <;> rfl

theorem parseFactorNoPre_eq (p : Parser) :
    parseFactorNoPre p =
      match p.curToken.Typ with
      | TokenType.LPAREN =>
        let r := parseExpressionNoPre p.nextToken
        let p3 := r.2.nextToken
        if p3.curToken.Typ ≠ TokenType.RPAREN then
          (Expression.nil, p3.print "Expected )\n")
        else (r.1, p3.nextToken)
      | TokenType.IDENT => (Expression.Variable p.curToken.Literal, p)
      | TokenType.NUMBER => (Expression.NumberLiteral (atoi p.curToken.Literal), p)
      | _ =>
        (Expression.nil, p.print ("Unexpected token: " ++ p.curToken.Literal ++ "\n")) := by
  simp only [parseFactorNoPre, parseExpressionNoPre]
  rw [parseFactorNoPreCore]
  split
  · simp_all only []
    split <;> rfl
  all_goals simp_all

theorem parseExpressionLoopNoPre_stop (left : Expression) (p : Parser)
    (h1 : p.curToken.Typ ≠ TokenType.PLUS) (h2 : p.curToken.Typ ≠ TokenType.MINUS) :
    parseExpressionLoopNoPre left p = (left, p) := by
  rw [parseExpressionLoopNoPre_eq]; simp [h1, h2]

theorem parseTermLoopNoPre_stop (left : Expression) (p : Parser)
    (h1 : p.curToken.Typ ≠ TokenType.ASTERISK) (h2 : p.curToken.Typ ≠ TokenType.SLASH)
    (h3 : p.curToken.Typ ≠ TokenType.MODULO) :
    parseTermLoopNoPre left p = (left, p) := by
  rw [parseTermLoopNoPre_eq]; simp [h1, h2, h3]

theorem ParseProgramLoopNoPre_eq (nodes : List Node) (p : Parser) :
    ParseProgramLoopNoPre nodes p =
      if p.curToken.Typ ≠ TokenType.EOF then
        ParseProgramLoopNoPre
          (match (parseStatementNoPre p).1 with
            | some node => nodes ++ [node]
            | none => nodes)
          (parseStatementNoPre p).2.nextToken
      else (nodes, p) := by
  rw [ParseProgramLoopNoPre]
  split <;> rfl

theorem ParseProgramLoopNoPre_stop (nodes : List Node) (p : Parser)
    (h : p.curToken.Typ = TokenType.EOF) : ParseProgramLoopNoPre nodes p = (nodes, p) := by
  rw [ParseProgramLoopNoPre_eq]; simp [h]

theorem ParseProgramLoopNoPre_step (nodes : List Node) (p : Parser)
    (h : p.curToken.Typ ≠ TokenType.EOF) :
    ParseProgramLoopNoPre nodes p =
        ParseProgramLoopNoPre
          (match (parseStatementNoPre p).1 with
            | some node => nodes ++ [node]
            | none => nodes)
          (parseStatementNoPre p).2.nextToken := by
  rw [ParseProgramLoopNoPre_eq, if_pos h]

theorem noOperandBeforeOperator_nextToken (p : Parser) (h : p.noOperandBeforeOperator) :
    p.nextToken.noOperandBeforeOperator := by
  rcases p with ⟨⟨l⟩, c, k, o⟩
  cases l with
  | nil =>
    simp only [Parser.noOperandBeforeOperator, Parser.nextToken, Lexer.NextToken,
      noOperandBeforeOperator, Token.eof, TokenType.isOperator] at h ⊢
    simp
  | cons t ts =>
    simp only [Parser.noOperandBeforeOperator, Parser.nextToken, Lexer.NextToken] at h ⊢
    rw [noOperandBeforeOperator, Bool.and_eq_true] at h
    exact h.2

theorem noOperandBeforeOperator_advance (k : Nat) (d : List String) (p : Parser)
    (h : p.noOperandBeforeOperator) : (Parser.advance k d p).noOperandBeforeOperator := by
  have hs : (Parser.skip k p).noOperandBeforeOperator := by
    induction k with
    | zero => exact h
    | succ k ih => exact noOperandBeforeOperator_nextToken _ ih
  exact hs

theorem noOperandBeforeOperator_ofTokens (ts : List Token) (o : List String)
    (h : noOperandBeforeOperator ts = true) :
    (Parser.ofTokens ts o).noOperandBeforeOperator := by
  match ts, h with
  | [], _ => simp [Parser.noOperandBeforeOperator, Parser.ofTokens, noOperandBeforeOperator,
      Token.eof, TokenType.isOperator]
  | [t], _ => simp [Parser.noOperandBeforeOperator, Parser.ofTokens, noOperandBeforeOperator,
      Token.eof, TokenType.isOperator]
  | t :: u :: r, h => exact h

theorem peekTokenIsOperator_of_noOperandBeforeOperator (p : Parser)
    (h : p.noOperandBeforeOperator) (hc : p.curToken.isOperand = true) :
    p.peekTokenIsOperator = false := by
  rcases p with ⟨⟨l⟩, c, k, o⟩
  simp only [Parser.noOperandBeforeOperator, noOperandBeforeOperator, Bool.and_eq_true,
    Bool.not_eq_true', Bool.and_eq_false_iff] at h
  simp only at hc
  rcases h.1 with h1 | h1
  · rw [hc] at h1; cases h1
  · simpa [Parser.peekTokenIsOperator, TokenType.isOperator] using h1

/-- Where no operand is directly followed by an operator, the descent with
and without the pre-advance of `parseFactor` is the same function. -/
theorem descent_noPre (p : Parser) :
    (p.noOperandBeforeOperator → parseFactor p = parseFactorNoPre p) ∧
    (∀ l, p.noOperandBeforeOperator → parseTermLoop l p = parseTermLoopNoPre l p) ∧
    (p.noOperandBeforeOperator → parseTerm p = parseTermNoPre p) ∧
    (∀ l, p.noOperandBeforeOperator →
      parseExpressionLoop l p = parseExpressionLoopNoPre l p) ∧
    (p.noOperandBeforeOperator → parseExpression p = parseExpressionNoPre p) := by
  have hadv : ∀ (q r : Parser), (∃ k d, r = Parser.advance k d q) →
      q.noOperandBeforeOperator → r.noOperandBeforeOperator :=
    fun q r ⟨k, d, e⟩ hq => e ▸ noOperandBeforeOperator_advance k d q hq
  refine descent_induction
    (F := fun p => p.noOperandBeforeOperator → parseFactor p = parseFactorNoPre p)
    (G := fun l p => p.noOperandBeforeOperator → parseTermLoop l p = parseTermLoopNoPre l p)
    (T := fun p => p.noOperandBeforeOperator → parseTerm p = parseTermNoPre p)
    (H := fun l p => p.noOperandBeforeOperator →
      parseExpressionLoop l p = parseExpressionLoopNoPre l p)
    (E := fun p => p.noOperandBeforeOperator → parseExpression p = parseExpressionNoPre p)
    ?_ ?_ ?_ ?_ ?_ p
  · intro p ih hs
    rw [parseFactor_eq, parseFactorNoPre_eq]
    cases hty : p.curToken.Typ
    case LPAREN =>
      simp only []
      rw [ih hty (noOperandBeforeOperator_nextToken p hs)]
    case IDENT =>
      simp only []
      rw [peekTokenIsOperator_of_noOperandBeforeOperator p hs (by simp [Token.isOperand, hty])]
      rfl
    case NUMBER =>
      simp only []
      rw [peekTokenIsOperator_of_noOperandBeforeOperator p hs (by simp [Token.isOperand, hty])]
      rfl
    all_goals rfl
  · intro l p ih hs
    rw [parseTermLoop_eq, parseTermLoopNoPre_eq]
    split
    · rename_i hc
      obtain ⟨hF, hG⟩ := ih hc
      have hs1 := noOperandBeforeOperator_nextToken p hs
      have hs2 := hadv _ _ (descent_advance p.nextToken).1 hs1
      rw [hG _ hs2, hF hs1]
    · rfl
  · intro p hF hG hs
    rw [parseTerm_eq, parseTermNoPre_eq, hG _ (hadv _ _ (descent_advance p).1 hs), hF hs]
  · intro l p ih hs
    rw [parseExpressionLoop_eq, parseExpressionLoopNoPre_eq]
    split
    · rename_i hc
      obtain ⟨hT, hH⟩ := ih hc
      have hs1 := noOperandBeforeOperator_nextToken p hs
      have hs2 := hadv _ _ (descent_advance p.nextToken).2.2.1 hs1
      rw [hH _ hs2, hT hs1]
    · rfl
  · intro p hT hH hs
    rw [parseExpression_eq, parseExpressionNoPre_eq,
      hH _ (hadv _ _ (descent_advance p).2.2.1 hs), hT hs]

theorem parseStatement_noPre (p : Parser) (hs : p.noOperandBeforeOperator) :
    parseStatement p = parseStatementNoPre p := by
  have hE := fun q hq => (descent_noPre q).2.2.2.2 hq
  have h1 := noOperandBeforeOperator_nextToken p hs
  have h2 := noOperandBeforeOperator_nextToken _ h1
  simp only [parseStatement, parseStatementNoPre, parseAssignmentOrDeclaration,
    parseAssignmentOrDeclarationNoPre, parsePrintStatement, parsePrintStatementNoPre,
    hE _ h1, hE _ h2]

theorem ParseProgramLoop_noPre (nodes : List Node) (p : Parser)
    (hs : p.noOperandBeforeOperator) :
    ParseProgramLoop nodes p = ParseProgramLoopNoPre nodes p := by
  generalize hm : p.size = m
  induction m using Nat.strong_induction_on generalizing p nodes with
  | _ m ih =>
    rw [ParseProgramLoop_eq, ParseProgramLoopNoPre_eq, ← parseStatement_noPre p hs]
    split
    · rename_i hc
      obtain ⟨k, d, e⟩ := parseStatement_advance p
      have hnext : (parseStatement p).2.nextToken.noOperandBeforeOperator :=
        noOperandBeforeOperator_nextToken _ (e ▸ noOperandBeforeOperator_advance k d p hs)
      exact ih _ (hm ▸ size_parseStatement_nextToken_lt p hc) _ _ hnext rfl
    · rfl

/-! ## After a closing parenthesis -/

/-- An assignment whose expression is `( a + b )`, in front of a token `t`
that is no arithmetic operator: the parenthesised factor leaves the parser on
`t`, the advance after the statement steps over it, and the program goes on
with what follows `t`. -/
theorem program_parenthesised_assignment (x la ll lr : String) (a b t : Token)
    (rest : List Token) (ha : a.isOperand = true) (hb : b.isOperand = true)
    (ht : t.Typ.isOperator = false) :
    programNodes
        (⟨TokenType.IDENT, x⟩ :: ⟨TokenType.ASSIGN, la⟩ :: ⟨TokenType.LPAREN, ll⟩ :: a ::
          ⟨TokenType.PLUS, "+"⟩ :: b :: ⟨TokenType.RPAREN, lr⟩ :: t :: rest) =
      Node.Assignment x
          (Expression.BinaryExpression (operandExpr a) "+" (operandExpr b)) ::
        programNodes rest := by
  have hin := parseExpression_chain a [(⟨TokenType.PLUS, "+"⟩, b)]
    (⟨TokenType.RPAREN, lr⟩ :: t :: rest) [] ha (by simpa using ⟨by decide, hb⟩) rfl
  simp only [chainTokens, List.cons_append, List.nil_append, leftNested, List.foldl_cons,
    List.foldl_nil, lastOperand] at hin
  have hta : t.Typ.isAdditive = false := by
    rcases t with ⟨ty, l⟩
    cases ty <;> simp_all [TokenType.isOperator, TokenType.isAdditive]
  have htm : t.Typ.isMultiplicative = false := by
    rcases t with ⟨ty, l⟩
    cases ty <;> simp_all [TokenType.isOperator, TokenType.isMultiplicative]
  have hE : parseExpression
      (Parser.ofTokens (⟨TokenType.LPAREN, ll⟩ :: a :: ⟨TokenType.PLUS, "+"⟩ :: b ::
        ⟨TokenType.RPAREN, lr⟩ :: t :: rest) []) =
      (Expression.BinaryExpression (operandExpr a) "+" (operandExpr b),
        Parser.ofTokens (t :: rest) []) := by
    rw [parseExpression_eq, parseTerm_eq, parseFactor_eq]
    simp only [curToken_ofTokens_cons, nextToken_ofTokens_cons, hin, ne_eq,
      not_true_eq_false, if_false]
    rw [parseTermLoop_of_not_isMultiplicative _ _ (by simpa using htm),
      parseExpressionLoop_of_not_isAdditive _ _ (by simpa using hta)]
  have h := program_step
    (⟨TokenType.IDENT, x⟩ :: ⟨TokenType.ASSIGN, la⟩ :: ⟨TokenType.LPAREN, ll⟩ :: a ::
      ⟨TokenType.PLUS, "+"⟩ :: b :: ⟨TokenType.RPAREN, lr⟩ :: t :: rest) rest []
    (some (Node.Assignment x
      (Expression.BinaryExpression (operandExpr a) "+" (operandExpr b))))
    (by simp)
    (by simp [parseStatement, parseAssignmentOrDeclaration, hE])
    (by simp [parseStatement, parseAssignmentOrDeclaration, hE])
  simpa using h.1

/-! ## A statement in the statement loop -/

/-- The nodes collected before a run of the statement loop stay in front of
the nodes the run adds. -/
theorem ParseProgramLoop_append (nodes : List Node) (p : Parser) :
    ParseProgramLoop nodes p = (nodes ++ (ParseProgram p).1, (ParseProgram p).2) := by
  have h := ParseProgramLoop_frame nodes [] p
  have hp : ∀ q : Parser, Parser.prepend [] q = q := fun q => by simp [Parser.prepend]
  rw [hp, hp] at h
  exact h

/-- The statement loop only adds to the output. -/
theorem ParseProgram_out (p : Parser) : ∃ d, (ParseProgram p).2.out = p.out ++ d := by
  have h := ParseProgramLoop_frame [] p.out { p with out := [] }
  have hp : Parser.prepend p.out { p with out := [] } = p := by simp [Parser.prepend]
  rw [hp] at h
  exact ⟨(ParseProgramLoop [] { p with out := [] }).2.out, by rw [ParseProgram, h]; rfl⟩

/-! ## The claims -/

/-- C1 at `show ( ( a ) )`: the parser does not accept two closing parentheses
in a row.  The inner group already steps past its `)`, so the advance the
outer group makes before testing for `)` lands on end-of-input; the result is
a `PrintStatement` with an absent expression and an `Expected )` diagnostic. -/
theorem C1_nested_parentheses_rejected :
    programNodes
        [⟨TokenType.SHOW, "show"⟩, ⟨TokenType.LPAREN, "("⟩, ⟨TokenType.LPAREN, "("⟩,
          ⟨TokenType.IDENT, "a"⟩, ⟨TokenType.RPAREN, ")"⟩, ⟨TokenType.RPAREN, ")"⟩] =
        [Node.PrintStatement Expression.nil] ∧
      programOutput
        [⟨TokenType.SHOW, "show"⟩, ⟨TokenType.LPAREN, "("⟩, ⟨TokenType.LPAREN, "("⟩,
          ⟨TokenType.IDENT, "a"⟩, ⟨TokenType.RPAREN, ")"⟩, ⟨TokenType.RPAREN, ")"⟩] =
        ["Expected )\n"] := by
  simp [programNodes, programOutput, NewParser_eq, ParseProgram, ParseProgramLoop_step,
    ParseProgramLoop_stop, parseStatement, parsePrintStatement, parseExpression_eq,
    parseTerm_eq, parseFactor_eq, peekTokenIsOperator, parseExpressionLoop_stop,
    parseTermLoop_stop]

/-- C2: multiplication binds tighter than addition.  For operand tokens `a`,
`b`, `c`, an additive operator `o1` and a multiplicative operator `o2`,
`parseExpression` started on `a` over `a o1 b o2 c`, followed by tokens `rest`
that do not begin with an arithmetic operator (or by end-of-input), returns
`BinaryExpression{a, o1, BinaryExpression{b, o2, c}}` and stops on `c`. -/
theorem C2_multiplicative_binds_tighter (a o1 b o2 c : Token) (rest : List Token)
    (out : List String)
    (ha : a.isOperand = true) (hb : b.isOperand = true) (hc : c.isOperand = true)
    (h1 : o1.Typ.isAdditive = true) (h2 : o2.Typ.isMultiplicative = true)
    (hrest : startsWithOperator rest = false) :
    parseExpression (Parser.ofTokens (a :: o1 :: b :: o2 :: c :: rest) out) =
      (Expression.BinaryExpression (operandExpr a) o1.Literal
          (Expression.BinaryExpression (operandExpr b) o2.Literal (operandExpr c)),
        Parser.ofTokens (c :: rest) out) := by
  rw [parseExpression_eq, parseTerm_eq,
    parseFactor_operand_operator a _ _ _ ha (TokenType.isOperator_of_isAdditive h1),
    parseTermLoop_of_not_isMultiplicative _ _
      (by simpa using TokenType.not_isMultiplicative_of_isAdditive h1),
    parseExpressionLoop_of_isAdditive _ _ (by simpa using h1)]
  simp only [nextToken_ofTokens_cons, curToken_ofTokens_cons]
  rw [parseTerm_eq,
    parseFactor_operand_operator b _ _ _ hb (TokenType.isOperator_of_isMultiplicative h2),
    parseTermLoop_of_isMultiplicative _ _ (by simpa using h2)]
  simp only [nextToken_ofTokens_cons, curToken_ofTokens_cons]
  rw [parseFactor_operand_last c _ _ hc hrest,
    parseTermLoop_of_not_isMultiplicative _ _
      (by simpa using Token.not_isMultiplicative_of_isOperand hc),
    parseExpressionLoop_of_not_isAdditive _ _
      (by simpa using Token.not_isAdditive_of_isOperand hc)]

/-- C2 at `a + 2 * c ;` with nothing printed before: the product is the right
operand of the sum. -/
theorem C2_multiplicative_binds_tighter_witness :
    parseExpression
        (Parser.ofTokens
          [⟨TokenType.IDENT, "a"⟩, ⟨TokenType.PLUS, "+"⟩, ⟨TokenType.NUMBER, "2"⟩,
            ⟨TokenType.ASTERISK, "*"⟩, ⟨TokenType.IDENT, "c"⟩, ⟨TokenType.RPAREN, ")"⟩] []) =
      (Expression.BinaryExpression (Expression.Variable "a") "+"
          (Expression.BinaryExpression (Expression.NumberLiteral 2) "*"
            (Expression.Variable "c")),
        Parser.ofTokens [⟨TokenType.IDENT, "c"⟩, ⟨TokenType.RPAREN, ")"⟩] []) :=
  C2_multiplicative_binds_tighter ⟨TokenType.IDENT, "a"⟩ ⟨TokenType.PLUS, "+"⟩
    ⟨TokenType.NUMBER, "2"⟩ ⟨TokenType.ASTERISK, "*"⟩ ⟨TokenType.IDENT, "c"⟩
    [⟨TokenType.RPAREN, ")"⟩] [] (by decide) (by decide) (by decide) (by decide) (by decide)
    (by decide)

/-- C3: same-precedence operators associate strictly to the left, for chains
of any length.  For operands `x0 .. xn` and operators `o1 .. on`, followed by
tokens `rest` that do not begin with an arithmetic operator (or by
end-of-input): when all operators are additive, `parseExpression` on
`x0 o1 x1 ... on xn` returns the left-nested tree `(((x0 o1 x1) o2 x2) ... on xn)`
and stops on `xn`; when all operators are multiplicative, `parseTerm` does. -/
theorem C3_left_associative (x0 : Token) (chain : List (Token × Token)) (rest : List Token)
    (out : List String) (hx : x0.isOperand = true)
    (hrest : startsWithOperator rest = false) :
    ((∀ ox ∈ chain, ox.1.Typ.isAdditive = true ∧ ox.2.isOperand = true) →
      parseExpression (Parser.ofTokens (x0 :: (chainTokens chain ++ rest)) out) =
        (leftNested (operandExpr x0) chain,
          Parser.ofTokens (lastOperand x0 chain :: rest) out)) ∧
    ((∀ ox ∈ chain, ox.1.Typ.isMultiplicative = true ∧ ox.2.isOperand = true) →
      parseTerm (Parser.ofTokens (x0 :: (chainTokens chain ++ rest)) out) =
        (leftNested (operandExpr x0) chain,
          Parser.ofTokens (lastOperand x0 chain :: rest) out)) :=
  ⟨fun hch => parseExpression_chain x0 chain rest out hx hch hrest,
    fun hch => parseTerm_chain x0 chain rest out hx hch hrest⟩

/-- C3 at `a - b - c`: the tree is `BinaryExpression{BinaryExpression{a,"-",b},"-",c}`. -/
theorem C3_left_associative_witness :
    parseExpression
        (Parser.ofTokens
          [⟨TokenType.IDENT, "a"⟩, ⟨TokenType.MINUS, "-"⟩, ⟨TokenType.IDENT, "b"⟩,
            ⟨TokenType.MINUS, "-"⟩, ⟨TokenType.IDENT, "c"⟩] []) =
      (Expression.BinaryExpression
          (Expression.BinaryExpression (Expression.Variable "a") "-"
            (Expression.Variable "b")) "-"
          (Expression.Variable "c"),
        Parser.ofTokens [⟨TokenType.IDENT, "c"⟩] []) :=
  (C3_left_associative ⟨TokenType.IDENT, "a"⟩
    [(⟨TokenType.MINUS, "-"⟩, ⟨TokenType.IDENT, "b"⟩),
      (⟨TokenType.MINUS, "-"⟩, ⟨TokenType.IDENT, "c"⟩)] [] [] (by decide) (by decide)).1
    (by decide)

/-- C4: parenthesisation overrides precedence and creates no node of its own.
For operand tokens `a`, `b`, `c`, `parseExpression` started on `(` over
`( a + b ) * c` followed by end-of-input returns
`BinaryExpression{BinaryExpression{a, "+", b}, "*", c}`, stops on `c` with
nothing left behind it, and prints nothing. -/
theorem C4_parentheses_override_precedence (a b c : Token) (ll lr : String)
    (out : List String)
    (ha : a.isOperand = true) (hb : b.isOperand = true) (hc : c.isOperand = true) :
    parseExpression
        (Parser.ofTokens
          [⟨TokenType.LPAREN, ll⟩, a, ⟨TokenType.PLUS, "+"⟩, b, ⟨TokenType.RPAREN, lr⟩,
            ⟨TokenType.ASTERISK, "*"⟩, c] out) =
      (Expression.BinaryExpression
          (Expression.BinaryExpression (operandExpr a) "+" (operandExpr b)) "*"
          (operandExpr c),
        Parser.ofTokens [c] out) := by
  have hin := parseExpression_chain a [(⟨TokenType.PLUS, "+"⟩, b)]
    [⟨TokenType.RPAREN, lr⟩, ⟨TokenType.ASTERISK, "*"⟩, c] out ha
    (by simpa using ⟨by decide, hb⟩) rfl
  simp only [chainTokens, List.cons_append, List.nil_append, leftNested, List.foldl_cons,
    List.foldl_nil, lastOperand] at hin
  rw [parseExpression_eq, parseTerm_eq, parseFactor_eq]
  simp only [curToken_ofTokens_cons, nextToken_ofTokens_cons, hin]
  rw [parseTermLoop_of_isMultiplicative _ _ (by simp; decide)]
  simp only [curToken_ofTokens_cons, nextToken_ofTokens_cons, ne_eq, not_true_eq_false,
    if_false]
  rw [parseFactor_operand_last c [] _ hc rfl,
    parseTermLoop_of_not_isMultiplicative _ _
      (by simpa using Token.not_isMultiplicative_of_isOperand hc),
    parseExpressionLoop_of_not_isAdditive _ _
      (by simpa using Token.not_isAdditive_of_isOperand hc)]

/-- C4 at `( a + 2 ) * c`. -/
theorem C4_parentheses_override_precedence_witness :
    parseExpression
        (Parser.ofTokens
          [⟨TokenType.LPAREN, "("⟩, ⟨TokenType.IDENT, "a"⟩, ⟨TokenType.PLUS, "+"⟩,
            ⟨TokenType.NUMBER, "2"⟩, ⟨TokenType.RPAREN, ")"⟩, ⟨TokenType.ASTERISK, "*"⟩,
            ⟨TokenType.IDENT, "c"⟩] []) =
      (Expression.BinaryExpression
          (Expression.BinaryExpression (Expression.Variable "a") "+"
            (Expression.NumberLiteral 2)) "*"
          (Expression.Variable "c"),
        Parser.ofTokens [⟨TokenType.IDENT, "c"⟩] []) :=
  C4_parentheses_override_precedence ⟨TokenType.IDENT, "a"⟩ ⟨TokenType.NUMBER, "2"⟩
    ⟨TokenType.IDENT, "c"⟩ "(" ")" [] (by decide) (by decide) (by decide)


/-- C5: an assignment statement yields an `Assignment` node holding the parsed
expression.  On `x = lm + ln` followed by end-of-input, where the number
literals denote `m` and `n`, `ParseProgram` returns exactly
`[Assignment{x, BinaryExpression{NumberLiteral{m}, "+", NumberLiteral{n}}}]`
and prints nothing. -/
theorem C5_assignment (x la lm ln : String) (m n : Int) (hm : Denotes lm m)
    (hn : Denotes ln n) :
    programNodes
        [⟨TokenType.IDENT, x⟩, ⟨TokenType.ASSIGN, la⟩, ⟨TokenType.NUMBER, lm⟩,
          ⟨TokenType.PLUS, "+"⟩, ⟨TokenType.NUMBER, ln⟩] =
        [Node.Assignment x
          (Expression.BinaryExpression (Expression.NumberLiteral m) "+"
            (Expression.NumberLiteral n))] ∧
      programOutput
        [⟨TokenType.IDENT, x⟩, ⟨TokenType.ASSIGN, la⟩, ⟨TokenType.NUMBER, lm⟩,
          ⟨TokenType.PLUS, "+"⟩, ⟨TokenType.NUMBER, ln⟩] = [] := by
  simp [programNodes, programOutput, NewParser_eq, ParseProgram, ParseProgramLoop_step,
    ParseProgramLoop_stop, parseStatement, parseAssignmentOrDeclaration, parseExpression_eq,
    parseTerm_eq, parseFactor_eq, peekTokenIsOperator, parseExpressionLoop_stop,
    parseExpressionLoop_step, parseTermLoop_stop, atoi_of_denotes hm, atoi_of_denotes hn]

/-- C5 at `x = 2 + 3`. -/
theorem C5_assignment_witness :
    programNodes
        [⟨TokenType.IDENT, "x"⟩, ⟨TokenType.ASSIGN, "="⟩, ⟨TokenType.NUMBER, "2"⟩,
          ⟨TokenType.PLUS, "+"⟩, ⟨TokenType.NUMBER, "3"⟩] =
        [Node.Assignment "x"
          (Expression.BinaryExpression (Expression.NumberLiteral 2) "+"
            (Expression.NumberLiteral 3))] ∧
      programOutput
        [⟨TokenType.IDENT, "x"⟩, ⟨TokenType.ASSIGN, "="⟩, ⟨TokenType.NUMBER, "2"⟩,
          ⟨TokenType.PLUS, "+"⟩, ⟨TokenType.NUMBER, "3"⟩] = [] :=
  C5_assignment "x" "=" "2" "3" 2 3 (by decide)
    (by decide)

/-- C6: a print statement yields a `PrintStatement` node wrapping the parsed
expression.  On `show x + ln` followed by end-of-input, where the number
literal denotes `n`, `ParseProgram` returns exactly
`[PrintStatement{BinaryExpression{Variable{x}, "+", NumberLiteral{n}}}]` and
prints nothing. -/
theorem C6_print_statement (ls x ln : String) (n : Int) (hn : Denotes ln n) :
    programNodes
        [⟨TokenType.SHOW, ls⟩, ⟨TokenType.IDENT, x⟩, ⟨TokenType.PLUS, "+"⟩,
          ⟨TokenType.NUMBER, ln⟩] =
        [Node.PrintStatement
          (Expression.BinaryExpression (Expression.Variable x) "+"
            (Expression.NumberLiteral n))] ∧
      programOutput
        [⟨TokenType.SHOW, ls⟩, ⟨TokenType.IDENT, x⟩, ⟨TokenType.PLUS, "+"⟩,
          ⟨TokenType.NUMBER, ln⟩] = [] := by
  simp [programNodes, programOutput, NewParser_eq, ParseProgram, ParseProgramLoop_step,
    ParseProgramLoop_stop, parseStatement, parsePrintStatement, parseExpression_eq,
    parseTerm_eq, parseFactor_eq, peekTokenIsOperator, parseExpressionLoop_stop,
    parseExpressionLoop_step, parseTermLoop_stop, atoi_of_denotes hn]

/-- C6 at `show x + 1`. -/
theorem C6_print_statement_witness :
    programNodes
        [⟨TokenType.SHOW, "show"⟩, ⟨TokenType.IDENT, "x"⟩, ⟨TokenType.PLUS, "+"⟩,
          ⟨TokenType.NUMBER, "1"⟩] =
        [Node.PrintStatement
          (Expression.BinaryExpression (Expression.Variable "x") "+"
            (Expression.NumberLiteral 1))] ∧
      programOutput
        [⟨TokenType.SHOW, "show"⟩, ⟨TokenType.IDENT, "x"⟩, ⟨TokenType.PLUS, "+"⟩,
          ⟨TokenType.NUMBER, "1"⟩] = [] :=
  C6_print_statement "show" "x" "1" 1 (by decide)

/-- C7: a typed declaration yields exactly one `VarDeclaration`.  On
`name : number = lit` followed by end-of-input, where the number literal `lit`
denotes `n`, `ParseProgram` returns `[VarDeclaration{name, n}]` and prints
nothing. -/
theorem C7_declaration (name lc lt la lit : String) (n : Int) (hn : Denotes lit n) :
    programNodes
        [⟨TokenType.IDENT, name⟩, ⟨TokenType.COLON, lc⟩, ⟨TokenType.NATURAL_NUMBER_TYPE, lt⟩,
          ⟨TokenType.ASSIGN, la⟩, ⟨TokenType.NUMBER, lit⟩] = [Node.VarDeclaration name n] ∧
      programOutput
        [⟨TokenType.IDENT, name⟩, ⟨TokenType.COLON, lc⟩, ⟨TokenType.NATURAL_NUMBER_TYPE, lt⟩,
          ⟨TokenType.ASSIGN, la⟩, ⟨TokenType.NUMBER, lit⟩] = [] := by
  simp [programNodes, programOutput, NewParser_eq, ParseProgram, ParseProgramLoop_step,
    ParseProgramLoop_stop, parseStatement, parseAssignmentOrDeclaration, atoi_of_denotes hn]

/-- C7 at `x: number = 5`. -/
theorem C7_declaration_witness :
    programNodes
        [⟨TokenType.IDENT, "x"⟩, ⟨TokenType.COLON, ":"⟩,
          ⟨TokenType.NATURAL_NUMBER_TYPE, "number"⟩, ⟨TokenType.ASSIGN, "="⟩,
          ⟨TokenType.NUMBER, "5"⟩] = [Node.VarDeclaration "x" 5] ∧
      programOutput
        [⟨TokenType.IDENT, "x"⟩, ⟨TokenType.COLON, ":"⟩,
          ⟨TokenType.NATURAL_NUMBER_TYPE, "number"⟩, ⟨TokenType.ASSIGN, "="⟩,
          ⟨TokenType.NUMBER, "5"⟩] = [] :=
  C7_declaration "x" ":" "number" "=" "5" 5 (by decide)

/-- C8: a declaration missing its `=` is dropped and parsing resumes at the
next statement.  On `x : number t` followed by `rest`, with `t` not `=`,
`ParseProgram` returns the nodes it returns on `rest`, and prints one
`Expected assignment operator` diagnostic followed by the output of `rest`. -/
theorem C8_declaration_missing_assign (x lc ln : String) (t : Token) (rest : List Token)
    (ht : t.Typ ≠ TokenType.ASSIGN) :
    programNodes
        (⟨TokenType.IDENT, x⟩ :: ⟨TokenType.COLON, lc⟩ ::
          ⟨TokenType.NATURAL_NUMBER_TYPE, ln⟩ :: t :: rest) = programNodes rest ∧
      programOutput
        (⟨TokenType.IDENT, x⟩ :: ⟨TokenType.COLON, lc⟩ ::
          ⟨TokenType.NATURAL_NUMBER_TYPE, ln⟩ :: t :: rest) =
        ("Expected assignment operator after type declaration: " ++ t.Literal ++ "\n") ::
          programOutput rest := by
  have hstep : ParseProgram (NewParser ⟨⟨TokenType.IDENT, x⟩ :: ⟨TokenType.COLON, lc⟩ ::
        ⟨TokenType.NATURAL_NUMBER_TYPE, ln⟩ :: t :: rest⟩) =
      ParseProgramLoop [] (Parser.ofTokens rest
        ["Expected assignment operator after type declaration: " ++ t.Literal ++ "\n"]) := by
    rw [ParseProgram, NewParser_eq, ParseProgramLoop_step _ _ (by simp)]
    simp [parseStatement, parseAssignmentOrDeclaration, ht]
  have h := ParseProgramLoop_ofTokens []
    ["Expected assignment operator after type declaration: " ++ t.Literal ++ "\n"] rest
  unfold programNodes programOutput
  rw [hstep]
  simpa using h

/-- C8 at `x : number 5`: no node, one diagnostic naming the `5`. -/
theorem C8_declaration_missing_assign_witness :
    programNodes
        [⟨TokenType.IDENT, "x"⟩, ⟨TokenType.COLON, ":"⟩,
          ⟨TokenType.NATURAL_NUMBER_TYPE, "number"⟩, ⟨TokenType.NUMBER, "5"⟩] =
        programNodes [] ∧
      programOutput
          [⟨TokenType.IDENT, "x"⟩, ⟨TokenType.COLON, ":"⟩,
            ⟨TokenType.NATURAL_NUMBER_TYPE, "number"⟩, ⟨TokenType.NUMBER, "5"⟩] =
        ("Expected assignment operator after type declaration: " ++ "5" ++ "\n") ::
          programOutput [] :=
  C8_declaration_missing_assign "x" ":" "number" ⟨TokenType.NUMBER, "5"⟩ [] (by decide)

/-- C9, as stated, fails at `show )`: the factor position holds a token that
starts no expression and a diagnostic is printed, yet the statement contributes
a node, a `PrintStatement` whose expression is absent. -/
theorem C9_offending_statement_keeps_node_counterexample :
    programNodes [⟨TokenType.SHOW, "show"⟩, ⟨TokenType.RPAREN, ")"⟩] =
        [Node.PrintStatement Expression.nil] ∧
      programOutput [⟨TokenType.SHOW, "show"⟩, ⟨TokenType.RPAREN, ")"⟩] =
        ["Unexpected token: )\n"] := by
  simp [programNodes, programOutput, NewParser_eq, ParseProgram, ParseProgramLoop_step,
    ParseProgramLoop_stop, parseStatement, parsePrintStatement, parseExpression_eq,
    parseTerm_eq, parseFactor_eq, parseExpressionLoop_stop, parseTermLoop_stop]

/-- C9, amended: an error in the expression of a print statement or of an
assignment prints a diagnostic and makes `parseFactor` return no expression,
but the statement still contributes its node to the result of `ParseProgram`.
A token that starts no expression gives the `Unexpected token` diagnostic and a
missing `)` the `Expected )` diagnostic, each with an absent factor.  Whenever
the statement loop stands on `show`, or on an identifier followed by `=`, it
appends the `PrintStatement` or `Assignment` holding whatever `parseExpression`
returned and goes on after it; the expression of that node is absent or has an
absent part exactly when a diagnostic was printed while it was parsed, and that
diagnostic is part of the output of `ParseProgram`. -/
theorem C9_offending_statement_keeps_node (nodes : List Node) (p : Parser) :
    (p.curToken.Typ ≠ TokenType.LPAREN → p.curToken.Typ ≠ TokenType.IDENT →
      p.curToken.Typ ≠ TokenType.NUMBER →
      parseFactor p =
        (Expression.nil, p.print ("Unexpected token: " ++ p.curToken.Literal ++ "\n"))) ∧
    (p.curToken.Typ = TokenType.LPAREN →
      (parseExpression p.nextToken).2.nextToken.curToken.Typ ≠ TokenType.RPAREN →
      parseFactor p =
        (Expression.nil, (parseExpression p.nextToken).2.nextToken.print "Expected )\n")) ∧
    (p.curToken.Typ = TokenType.SHOW →
      ParseProgramLoop nodes p =
          (nodes ++ Node.PrintStatement (parseExpression p.nextToken).1 ::
              (ParseProgram (parseExpression p.nextToken).2.nextToken).1,
            (ParseProgram (parseExpression p.nextToken).2.nextToken).2) ∧
        ∃ d e, (parseExpression p.nextToken).2.out = p.out ++ d ∧
          ((parseExpression p.nextToken).1.hasNil = true ↔ d ≠ []) ∧
          (ParseProgramLoop nodes p).2.out = p.out ++ d ++ e) ∧
    (p.curToken.Typ = TokenType.IDENT → p.nextToken.curToken.Typ = TokenType.ASSIGN →
      ParseProgramLoop nodes p =
          (nodes ++ Node.Assignment p.curToken.Literal
                (parseExpression p.nextToken.nextToken).1 ::
              (ParseProgram (parseExpression p.nextToken.nextToken).2.nextToken).1,
            (ParseProgram (parseExpression p.nextToken.nextToken).2.nextToken).2) ∧
        ∃ d e, (parseExpression p.nextToken.nextToken).2.out = p.out ++ d ∧
          ((parseExpression p.nextToken.nextToken).1.hasNil = true ↔ d ≠ []) ∧
          (ParseProgramLoop nodes p).2.out = p.out ++ d ++ e) := by
  refine ⟨?_, ?_, ?_, ?_⟩
  · intro h1 h2 h3
    rw [parseFactor_eq]
    split
    · rename_i h; exact absurd h h1
    · rename_i h; exact absurd h h2
    · rename_i h; exact absurd h h3
    · rfl
  · intro h1 h2
    rw [parseFactor_eq]
    split
    · simp only []
      rw [if_pos h2]
    all_goals simp_all
  · intro hc
    have hstep : ParseProgramLoop nodes p =
        (nodes ++ Node.PrintStatement (parseExpression p.nextToken).1 ::
            (ParseProgram (parseExpression p.nextToken).2.nextToken).1,
          (ParseProgram (parseExpression p.nextToken).2.nextToken).2) := by
      rw [ParseProgramLoop_step _ _ (by simp [hc])]
      simp only [parseStatement, hc, parsePrintStatement]
      rw [ParseProgramLoop_append]
      simp
    obtain ⟨d, hd, hn⟩ := (descent_hasNil p.nextToken).2.2.2.2
    obtain ⟨e, he⟩ := ParseProgram_out (parseExpression p.nextToken).2.nextToken
    have hq : (parseExpression p.nextToken).2.nextToken.out = p.out ++ d := hd
    refine ⟨hstep, d, e, hd, hn, ?_⟩
    rw [hstep, ← hq]
    exact he
  · intro hc ha
    have hstep : ParseProgramLoop nodes p =
        (nodes ++ Node.Assignment p.curToken.Literal
              (parseExpression p.nextToken.nextToken).1 ::
            (ParseProgram (parseExpression p.nextToken.nextToken).2.nextToken).1,
          (ParseProgram (parseExpression p.nextToken.nextToken).2.nextToken).2) := by
      rw [ParseProgramLoop_step _ _ (by simp [hc])]
      simp only [parseStatement, hc, parseAssignmentOrDeclaration, ha]
      simp only [reduceCtorEq, if_false, if_true]
      rw [ParseProgramLoop_append]
      simp
    obtain ⟨d, hd, hn⟩ := (descent_hasNil p.nextToken.nextToken).2.2.2.2
    obtain ⟨e, he⟩ := ParseProgram_out (parseExpression p.nextToken.nextToken).2.nextToken
    have hq : (parseExpression p.nextToken.nextToken).2.nextToken.out = p.out ++ d := hd
    refine ⟨hstep, d, e, hd, hn, ?_⟩
    rw [hstep, ← hq]
    exact he

/-- C9 amended, at `x = )`: the result of `ParseProgram` holds the assignment
with an absent expression, and its output the diagnostic. -/
theorem C9_offending_statement_keeps_node_witness :
    programNodes
        [⟨TokenType.IDENT, "x"⟩, ⟨TokenType.ASSIGN, "="⟩, ⟨TokenType.RPAREN, ")"⟩] =
        [Node.Assignment "x" Expression.nil] ∧
      programOutput
        [⟨TokenType.IDENT, "x"⟩, ⟨TokenType.ASSIGN, "="⟩, ⟨TokenType.RPAREN, ")"⟩] =
        ["Unexpected token: )\n"] := by
  have h := ((C9_offending_statement_keeps_node []
    (NewParser
      ⟨[⟨TokenType.IDENT, "x"⟩, ⟨TokenType.ASSIGN, "="⟩, ⟨TokenType.RPAREN, ")"⟩]⟩)).2.2.2
    (by decide) (by decide)).1
  unfold programNodes programOutput ParseProgram
  rw [h]
  simp [NewParser_eq, ParseProgram, ParseProgramLoop_stop, parseExpression_eq,
    parseTerm_eq, parseFactor_eq, parseExpressionLoop_stop, parseTermLoop_stop]

/-- C10: an unknown statement is skipped one token at a time.  For a token `t`
that is neither an identifier, `show` nor end-of-input and any tokens `rest`,
`ParseProgram` on `t :: rest` returns the nodes it returns on `rest`, and prints
one `Unknown statement` diagnostic for `t` followed by the output of `rest`. -/
theorem C10_unknown_statement_skipped (t : Token) (rest : List Token)
    (h1 : t.Typ ≠ TokenType.IDENT) (h2 : t.Typ ≠ TokenType.SHOW)
    (h3 : t.Typ ≠ TokenType.EOF) :
    programNodes (t :: rest) = programNodes rest ∧
      programOutput (t :: rest) =
        ("Unknown statement: " ++ t.Literal ++ "\n") :: programOutput rest := by
  have hstep : ParseProgram (NewParser ⟨t :: rest⟩) =
      ParseProgramLoop [] (Parser.ofTokens rest ["Unknown statement: " ++ t.Literal ++ "\n"]) := by
    rw [ParseProgram, NewParser_eq, ParseProgramLoop_step _ _ (by simpa using h3),
      parseStatement_unknown _ (by simpa using h1) (by simpa using h2)]
    simp
  have h := ParseProgramLoop_ofTokens [] ["Unknown statement: " ++ t.Literal ++ "\n"] rest
  unfold programNodes programOutput
  rw [hstep]
  simpa using h

/-- C10 at `) show x`: the stray parenthesis yields no node and one diagnostic. -/
theorem C10_unknown_statement_skipped_witness :
    programNodes [⟨TokenType.RPAREN, ")"⟩, ⟨TokenType.SHOW, "show"⟩, ⟨TokenType.IDENT, "x"⟩] =
        programNodes [⟨TokenType.SHOW, "show"⟩, ⟨TokenType.IDENT, "x"⟩] ∧
      programOutput
          [⟨TokenType.RPAREN, ")"⟩, ⟨TokenType.SHOW, "show"⟩, ⟨TokenType.IDENT, "x"⟩] =
        ("Unknown statement: " ++ ")" ++ "\n") ::
          programOutput [⟨TokenType.SHOW, "show"⟩, ⟨TokenType.IDENT, "x"⟩] :=
  C10_unknown_statement_skipped ⟨TokenType.RPAREN, ")"⟩
    [⟨TokenType.SHOW, "show"⟩, ⟨TokenType.IDENT, "x"⟩] (by decide) (by decide) (by decide)

/-- C11, as stated, fails at `x : number = y`: the token after `=` is an
identifier, not a number literal, and a `VarDeclaration` is produced all the
same, with the value 0 that `atoi` answers when it finds no integer. -/
theorem C11_var_declaration_value_counterexample :
    programNodes
        [⟨TokenType.IDENT, "x"⟩, ⟨TokenType.COLON, ":"⟩,
          ⟨TokenType.NATURAL_NUMBER_TYPE, "number"⟩, ⟨TokenType.ASSIGN, "="⟩,
          ⟨TokenType.IDENT, "y"⟩] = [Node.VarDeclaration "x" 0] := by
  simp [programNodes, NewParser_eq, ParseProgram, ParseProgramLoop_step,
    ParseProgramLoop_stop, parseStatement, parseAssignmentOrDeclaration]
  decide

/-- C11, amended: a `VarDeclaration`'s value is the base-10 conversion of the
literal of the token after `=`, whatever the type of that token.  For every
token stream, every `VarDeclaration` in the result of `ParseProgram` comes from
a declaration `name : number =` in the stream, its `Value` is `atoi` of the
literal of the token that follows the `=` (end-of-input when nothing follows),
and that is the integer the literal denotes when it is a number literal.  A
declaration produces its `VarDeclaration` for every value token, number
literal or not, and parsing goes on after that token. -/
theorem C11_var_declaration_value (toks : List Token) :
    (∀ name v, Node.VarDeclaration name v ∈ programNodes toks →
      ∃ pre lc lt la post,
        toks = pre ++ (⟨TokenType.IDENT, name⟩ :: ⟨TokenType.COLON, lc⟩ ::
            ⟨TokenType.NATURAL_NUMBER_TYPE, lt⟩ :: ⟨TokenType.ASSIGN, la⟩ :: post) ∧
          v = atoi (post.headD Token.eof).Literal ∧
          ∀ n, Denotes (post.headD Token.eof).Literal n → v = n) ∧
    (∀ (name lc lt la : String) (val : Token),
      programNodes
          (⟨TokenType.IDENT, name⟩ :: ⟨TokenType.COLON, lc⟩ ::
            ⟨TokenType.NATURAL_NUMBER_TYPE, lt⟩ :: ⟨TokenType.ASSIGN, la⟩ :: val :: toks) =
        Node.VarDeclaration name (atoi val.Literal) :: programNodes toks) := by
  constructor
  · intro name v hmem
    obtain ⟨k, hk⟩ := programNodes_mem toks _ hmem
    obtain ⟨lc, lt, la, post, hts, hv⟩ := parseStatement_eq_VarDeclaration _ name v hk
    refine ⟨toks.take k, lc, lt, la, post, ?_, hv, ?_⟩
    · rw [← hts, List.take_append_drop]
    · intro n hn
      rw [hv, atoi_of_denotes hn]
  · intro name lc lt la val
    have h := program_step
      (⟨TokenType.IDENT, name⟩ :: ⟨TokenType.COLON, lc⟩ ::
        ⟨TokenType.NATURAL_NUMBER_TYPE, lt⟩ :: ⟨TokenType.ASSIGN, la⟩ :: val :: toks) toks []
      (some (Node.VarDeclaration name (atoi val.Literal))) (by simp)
      (by simp [parseStatement, parseAssignmentOrDeclaration])
      (by simp [parseStatement, parseAssignmentOrDeclaration])
    simpa using h.1

/-- C11 amended, at `x : number = 5 show y`: the only `VarDeclaration` of the
result sits after the empty prefix and carries the value of the literal `5`. -/
theorem C11_var_declaration_value_witness :
    ∃ pre lc lt la post,
      [⟨TokenType.IDENT, "x"⟩, ⟨TokenType.COLON, ":"⟩,
          ⟨TokenType.NATURAL_NUMBER_TYPE, "number"⟩, ⟨TokenType.ASSIGN, "="⟩,
          ⟨TokenType.NUMBER, "5"⟩, ⟨TokenType.SHOW, "show"⟩, ⟨TokenType.IDENT, "y"⟩] =
        pre ++ (⟨TokenType.IDENT, "x"⟩ :: ⟨TokenType.COLON, lc⟩ ::
            ⟨TokenType.NATURAL_NUMBER_TYPE, lt⟩ :: ⟨TokenType.ASSIGN, la⟩ :: post) ∧
        (5 : Int) = atoi (post.headD Token.eof).Literal := by
  obtain ⟨pre, lc, lt, la, post, h1, h2, _⟩ :=
    (C11_var_declaration_value
      [⟨TokenType.IDENT, "x"⟩, ⟨TokenType.COLON, ":"⟩,
        ⟨TokenType.NATURAL_NUMBER_TYPE, "number"⟩, ⟨TokenType.ASSIGN, "="⟩,
        ⟨TokenType.NUMBER, "5"⟩, ⟨TokenType.SHOW, "show"⟩, ⟨TokenType.IDENT, "y"⟩]).1 "x" 5
      (by
        simp [programNodes, NewParser_eq, ParseProgram, ParseProgramLoop_step,
          ParseProgramLoop_stop, parseStatement, parseAssignmentOrDeclaration,
          parsePrintStatement, parseExpression_eq, parseTerm_eq, parseFactor_eq,
          peekTokenIsOperator, parseExpressionLoop_stop, parseTermLoop_stop]
        decide)
  exact ⟨pre, lc, lt, la, post, h1, h2⟩

/-- C12: the operator invariant.  When every `PLUS`, `MINUS`, `ASTERISK`,
`SLASH` and `MODULO` token of the stream carries its symbol as literal, every
`BinaryExpression` anywhere in any node `ParseProgram` returns has `Operator`
among `+ - * / %`; and in every parser state over such tokens the nodes the
loop of `parseExpression` builds around its first term carry `+` or `-`, the
nodes the loop of `parseTerm` builds around its first factor carry `*`, `/` or
`%`. -/
theorem C12_operator_invariant (toks : List Token)
    (htoks : ∀ t ∈ toks, t.hasSymbolLiteral = true) :
    (∀ n ∈ programNodes toks, n.operatorsOK = true) ∧
    (∀ (k : Nat) (out : List String),
      wrappedWith ["+", "-"] (parseTerm (Parser.ofTokens (toks.drop k) out)).1
          (parseExpression (Parser.ofTokens (toks.drop k) out)).1 = true ∧
        wrappedWith ["*", "/", "%"] (parseFactor (Parser.ofTokens (toks.drop k) out)).1
          (parseTerm (Parser.ofTokens (toks.drop k) out)).1 = true) := by
  have hsym : ∀ (k : Nat) (out : List String),
      (Parser.ofTokens (toks.drop k) out).symbolLiterals := fun k out =>
    symbolLiterals_ofTokens _ _ (fun t ht => htoks t (List.mem_of_mem_drop ht))
  constructor
  · intro n hn
    obtain ⟨k, hk⟩ := programNodes_mem toks n hn
    exact parseStatement_operators _ (hsym k []) n hk
  · intro k out
    have hadv : ∀ (q r : Parser), (∃ k d, r = Parser.advance k d q) → q.symbolLiterals →
        r.symbolLiterals := fun q r ⟨k, d, e⟩ hq => e ▸ symbolLiterals_advance k d q hq
    constructor
    · rw [parseExpression_eq]
      exact ((descent_operators _).2.2.2.1 _
        (hadv _ _ (descent_advance _).2.2.1 (hsym k out))).2
    · rw [parseTerm_eq]
      exact ((descent_operators _).2.1 _ (hadv _ _ (descent_advance _).1 (hsym k out))).2

/-- C12 at `show a + b * c`: every operator in the nodes returned is an
arithmetic symbol, and the expression is its first term wrapped in a `+`. -/
theorem C12_operator_invariant_witness :
    (programNodes
        [⟨TokenType.SHOW, "show"⟩, ⟨TokenType.IDENT, "a"⟩, ⟨TokenType.PLUS, "+"⟩,
          ⟨TokenType.IDENT, "b"⟩, ⟨TokenType.ASTERISK, "*"⟩, ⟨TokenType.IDENT, "c"⟩]).all
        (fun n => n.operatorsOK) = true ∧
      wrappedWith ["+", "-"]
        (parseTerm
          (Parser.ofTokens
            [⟨TokenType.IDENT, "a"⟩, ⟨TokenType.PLUS, "+"⟩, ⟨TokenType.IDENT, "b"⟩,
              ⟨TokenType.ASTERISK, "*"⟩, ⟨TokenType.IDENT, "c"⟩] [])).1
        (parseExpression
          (Parser.ofTokens
            [⟨TokenType.IDENT, "a"⟩, ⟨TokenType.PLUS, "+"⟩, ⟨TokenType.IDENT, "b"⟩,
              ⟨TokenType.ASTERISK, "*"⟩, ⟨TokenType.IDENT, "c"⟩] [])).1 = true :=
  ⟨List.all_eq_true.2
      (C12_operator_invariant
        [⟨TokenType.SHOW, "show"⟩, ⟨TokenType.IDENT, "a"⟩, ⟨TokenType.PLUS, "+"⟩,
          ⟨TokenType.IDENT, "b"⟩, ⟨TokenType.ASTERISK, "*"⟩, ⟨TokenType.IDENT, "c"⟩]
        (by decide)).1,
    ((C12_operator_invariant
        [⟨TokenType.SHOW, "show"⟩, ⟨TokenType.IDENT, "a"⟩, ⟨TokenType.PLUS, "+"⟩,
          ⟨TokenType.IDENT, "b"⟩, ⟨TokenType.ASTERISK, "*"⟩, ⟨TokenType.IDENT, "c"⟩]
        (by decide)).2 1 []).1⟩

/-- C13: parsing always terminates.  `NewParser` followed by `ParseProgram`
is a total function of the token list: it returns with the parser on
end-of-input and with at most one node per token, for every input.  The
measure is the number of tokens ahead (`Parser.size`): it starts at no more
than the length of the list, it never grows along `parseFactor`, `parseTerm`
and `parseExpression`, it drops when `parseFactor` steps into a parenthesis,
and it drops in every round of the statement loop. -/
theorem C13_parsing_terminates (toks : List Token) :
    (ParseProgram (NewParser ⟨toks⟩)).2.curToken.Typ = TokenType.EOF ∧
    (programNodes toks).length ≤ toks.length ∧
    (NewParser ⟨toks⟩).size ≤ toks.length ∧
    (∀ p : Parser, (parseFactor p).2.size ≤ p.size ∧ (parseTerm p).2.size ≤ p.size ∧
      (parseExpression p).2.size ≤ p.size) ∧
    (∀ p : Parser, p.curToken.Typ = TokenType.LPAREN → p.nextToken.size < p.size) ∧
    (∀ p : Parser, p.curToken.Typ ≠ TokenType.EOF →
      (parseStatement p).2.nextToken.size < p.size) := by
  have hsz : (NewParser ⟨toks⟩).size ≤ toks.length := by
    rw [NewParser_eq]; exact size_ofTokens_le toks []
  refine ⟨(ParseProgramLoop_end [] _).1, ?_, hsz,
    fun p => ⟨parseFactor_size_le p, parseTerm_size_le p, parseExpression_size_le p⟩,
    fun p h => size_nextToken_lt p (by simp [h]), size_parseStatement_nextToken_lt⟩
  have h := (ParseProgramLoop_end [] (NewParser ⟨toks⟩)).2
  simp only [List.length_nil, Nat.zero_add] at h
  exact Nat.le_trans h hsz

/-- C13 at the malformed input `( ) = show`: the parse returns, on
end-of-input, with at most four nodes; and stepping into `( a` leaves fewer
tokens ahead. -/
theorem C13_parsing_terminates_witness :
    (ParseProgram
        (NewParser
          ⟨[⟨TokenType.LPAREN, "("⟩, ⟨TokenType.RPAREN, ")"⟩, ⟨TokenType.ASSIGN, "="⟩,
            ⟨TokenType.SHOW, "show"⟩]⟩)).2.curToken.Typ = TokenType.EOF ∧
      (programNodes
        [⟨TokenType.LPAREN, "("⟩, ⟨TokenType.RPAREN, ")"⟩, ⟨TokenType.ASSIGN, "="⟩,
          ⟨TokenType.SHOW, "show"⟩]).length ≤ 4 ∧
      (Parser.ofTokens [⟨TokenType.LPAREN, "("⟩, ⟨TokenType.IDENT, "a"⟩] []).nextToken.size <
        (Parser.ofTokens [⟨TokenType.LPAREN, "("⟩, ⟨TokenType.IDENT, "a"⟩] []).size :=
  ⟨(C13_parsing_terminates
      [⟨TokenType.LPAREN, "("⟩, ⟨TokenType.RPAREN, ")"⟩, ⟨TokenType.ASSIGN, "="⟩,
        ⟨TokenType.SHOW, "show"⟩]).1,
    (C13_parsing_terminates
      [⟨TokenType.LPAREN, "("⟩, ⟨TokenType.RPAREN, ")"⟩, ⟨TokenType.ASSIGN, "="⟩,
        ⟨TokenType.SHOW, "show"⟩]).2.1,
    (C13_parsing_terminates []).2.2.2.2.1 _ (by decide)⟩

/-- C14: empty input yields an empty node sequence.  When the first token the
tokenizer delivers is end-of-input, `ParseProgram` returns no node and prints
nothing. -/
theorem C14_empty_input (toks : List Token)
    (h : (toks.headD Token.eof).Typ = TokenType.EOF) :
    programNodes toks = [] ∧ programOutput toks = [] := by
  have hc : (Parser.ofTokens toks []).curToken.Typ = TokenType.EOF := by
    cases toks with
    | nil => rfl
    | cons t ts => simpa using h
  simp [programNodes, programOutput, ParseProgram, NewParser_eq, ParseProgramLoop_stop _ _ hc]

/-- C14 at the empty token sequence. -/
theorem C14_empty_input_witness : programNodes [] = [] ∧ programOutput [] = [] :=
  C14_empty_input [] (by decide)

/-- C15: parenthesis-free statements compose.  For well-formed statements,
each a declaration `name : number = NUMBER`, an assignment `name = e` or a
print `show e` with `e` a non-empty alternation of operands and arithmetic
operators, followed by tokens `rest` that do not begin with an arithmetic
operator, `ParseProgram` returns the node of each statement, in source order,
followed by the nodes it returns on `rest`, and prints only what it prints on
`rest`: each statement consumes exactly its own tokens. -/
theorem C15_statements_compose (ss : List SimpleStatement) (rest : List Token)
    (hwf : ∀ s ∈ ss, s.wellFormed = true) (hrest : startsWithOperator rest = false) :
    programNodes (statementsTokens ss ++ rest) =
        ss.map SimpleStatement.node ++ programNodes rest ∧
      programOutput (statementsTokens ss ++ rest) = programOutput rest := by
  induction ss with
  | nil => exact ⟨rfl, rfl⟩
  | cons s r ih =>
    have hr := ih (fun s hs => hwf s (List.mem_cons_of_mem _ hs))
    have hnext : startsWithOperator (statementsTokens r ++ rest) = false := by
      cases r with
      | nil => exact hrest
      | cons s2 r2 =>
        rw [statementsTokens, List.append_assoc]
        exact startsWithOperator_tokens_append s2 _
    have h := program_simpleStatement s (statementsTokens r ++ rest)
      (hwf s (List.mem_cons_self _ _)) hnext
    rw [statementsTokens, List.append_assoc, h.1, h.2, hr.1, hr.2]
    exact ⟨rfl, rfl⟩

/-- C15 at `x : number = 5  y = x + 2 * 3  show y` followed by `)`: three
nodes in source order, then the nodes of `)`. -/
theorem C15_statements_compose_witness :
    programNodes
        ([⟨TokenType.IDENT, "x"⟩, ⟨TokenType.COLON, ":"⟩,
            ⟨TokenType.NATURAL_NUMBER_TYPE, "number"⟩, ⟨TokenType.ASSIGN, "="⟩,
            ⟨TokenType.NUMBER, "5"⟩,
            ⟨TokenType.IDENT, "y"⟩, ⟨TokenType.ASSIGN, "="⟩, ⟨TokenType.IDENT, "x"⟩,
            ⟨TokenType.PLUS, "+"⟩, ⟨TokenType.NUMBER, "2"⟩, ⟨TokenType.ASTERISK, "*"⟩,
            ⟨TokenType.NUMBER, "3"⟩,
            ⟨TokenType.SHOW, "show"⟩, ⟨TokenType.IDENT, "y"⟩] ++ [⟨TokenType.RPAREN, ")"⟩]) =
        [Node.VarDeclaration "x" 5,
          Node.Assignment "y"
            (Expression.BinaryExpression (Expression.Variable "x") "+"
              (Expression.BinaryExpression (Expression.NumberLiteral 2) "*"
                (Expression.NumberLiteral 3))),
          Node.PrintStatement (Expression.Variable "y")] ++
          programNodes [⟨TokenType.RPAREN, ")"⟩] :=
  (C15_statements_compose
    [SimpleStatement.declaration "x" ":" "number" "=" "5",
      SimpleStatement.assignment "y" "=" ⟨TokenType.IDENT, "x"⟩
        [(⟨TokenType.PLUS, "+"⟩, ⟨TokenType.NUMBER, "2"⟩),
          (⟨TokenType.ASTERISK, "*"⟩, ⟨TokenType.NUMBER, "3"⟩)],
      SimpleStatement.print "show" ⟨TokenType.IDENT, "y"⟩ []]
    [⟨TokenType.RPAREN, ")"⟩] (by decide) (by decide)).1

/-- C16 at `x = ( a + b ) show c`: the statement after the closing parenthesis
loses its first token.  The parenthesised factor leaves the parser on `show`,
the advance after the statement steps over it, and `c` is then read as an
identifier statement without continuation: one node instead of two. -/
theorem C16_token_after_parenthesis_swallowed :
    programNodes
        [⟨TokenType.IDENT, "x"⟩, ⟨TokenType.ASSIGN, "="⟩, ⟨TokenType.LPAREN, "("⟩,
          ⟨TokenType.IDENT, "a"⟩, ⟨TokenType.PLUS, "+"⟩, ⟨TokenType.IDENT, "b"⟩,
          ⟨TokenType.RPAREN, ")"⟩, ⟨TokenType.SHOW, "show"⟩, ⟨TokenType.IDENT, "c"⟩] =
        [Node.Assignment "x"
          (Expression.BinaryExpression (Expression.Variable "a") "+"
            (Expression.Variable "b"))] ∧
      programNodes [⟨TokenType.SHOW, "show"⟩, ⟨TokenType.IDENT, "c"⟩] =
        [Node.PrintStatement (Expression.Variable "c")] := by
  constructor <;>
  simp [programNodes, NewParser_eq, ParseProgram, ParseProgramLoop_step,
    ParseProgramLoop_stop, parseStatement, parsePrintStatement, parseAssignmentOrDeclaration,
    parseExpression_eq, parseTerm_eq, parseFactor_eq, peekTokenIsOperator,
    parseExpressionLoop_stop, parseExpressionLoop_step, parseTermLoop_stop]

/-- C17: parenthesis-free expressions parse to the reference tree.  For
operands `x0 .. xn` and operators `o1 .. on` mixed from `+ - * / %`, followed
by tokens `rest` that do not begin with an arithmetic operator (or by
end-of-input), `parseExpression` on `x0 o1 x1 ... on xn` returns the tree got
by splitting the sequence at its additive operators, left-folding each run of
factors into a term and left-folding the terms; the in-order traversal of that
tree is the input sequence, and the parser is left on `xn`. -/
theorem C17_reference_tree (x0 : Token) (chain : List (Token × Token)) (rest : List Token)
    (out : List String) (hx : x0.isOperand = true)
    (hch : ∀ ox ∈ chain, ox.1.Typ.isOperator = true ∧ ox.2.isOperand = true)
    (hrest : startsWithOperator rest = false) :
    parseExpression (Parser.ofTokens (x0 :: (chainTokens chain ++ rest)) out) =
        (referenceTree x0 chain, Parser.ofTokens (lastOperand x0 chain :: rest) out) ∧
      (referenceTree x0 chain).inorder = (x0 :: chainTokens chain).map Token.item :=
  ⟨parseExpression_mixed x0 chain rest out hx hch hrest,
    inorder_referenceTree x0 chain hx hch⟩

/-- C17 at `a + b * c - d )`: the tree is `(a + (b * c)) - d`, its traversal
is `a + b * c - d`, and the parser stays on `d`. -/
theorem C17_reference_tree_witness :
    parseExpression
          (Parser.ofTokens
            [⟨TokenType.IDENT, "a"⟩, ⟨TokenType.PLUS, "+"⟩, ⟨TokenType.IDENT, "b"⟩,
              ⟨TokenType.ASTERISK, "*"⟩, ⟨TokenType.IDENT, "c"⟩, ⟨TokenType.MINUS, "-"⟩,
              ⟨TokenType.IDENT, "d"⟩, ⟨TokenType.RPAREN, ")"⟩] []) =
        (Expression.BinaryExpression
            (Expression.BinaryExpression (Expression.Variable "a") "+"
              (Expression.BinaryExpression (Expression.Variable "b") "*"
                (Expression.Variable "c"))) "-"
            (Expression.Variable "d"),
          Parser.ofTokens [⟨TokenType.IDENT, "d"⟩, ⟨TokenType.RPAREN, ")"⟩] []) ∧
      (Expression.BinaryExpression
            (Expression.BinaryExpression (Expression.Variable "a") "+"
              (Expression.BinaryExpression (Expression.Variable "b") "*"
                (Expression.Variable "c"))) "-"
            (Expression.Variable "d")).inorder =
        [Item.operand (Expression.Variable "a"), Item.operator "+",
          Item.operand (Expression.Variable "b"), Item.operator "*",
          Item.operand (Expression.Variable "c"), Item.operator "-",
          Item.operand (Expression.Variable "d")] :=
  C17_reference_tree ⟨TokenType.IDENT, "a"⟩
    [(⟨TokenType.PLUS, "+"⟩, ⟨TokenType.IDENT, "b"⟩),
      (⟨TokenType.ASTERISK, "*"⟩, ⟨TokenType.IDENT, "c"⟩),
      (⟨TokenType.MINUS, "-"⟩, ⟨TokenType.IDENT, "d"⟩)]
    [⟨TokenType.RPAREN, ")"⟩] [] (by decide) (by decide) (by decide)

/-- C18, as stated, fails at `show a + b`: with the pre-advance the statement
is `PrintStatement{a + b}`; without it `parseFactor` stays on `a`, the loops
of `parseTerm` and `parseExpression` test `a` and stop, and the statement is
`PrintStatement{a}`. -/
theorem C18_pre_advance_needed_counterexample :
    programNodes
        [⟨TokenType.SHOW, "show"⟩, ⟨TokenType.IDENT, "a"⟩, ⟨TokenType.PLUS, "+"⟩,
          ⟨TokenType.IDENT, "b"⟩] =
        [Node.PrintStatement
          (Expression.BinaryExpression (Expression.Variable "a") "+"
            (Expression.Variable "b"))] ∧
      programNodesNoPre
        [⟨TokenType.SHOW, "show"⟩, ⟨TokenType.IDENT, "a"⟩, ⟨TokenType.PLUS, "+"⟩,
          ⟨TokenType.IDENT, "b"⟩] =
        [Node.PrintStatement (Expression.Variable "a")] := by
  constructor
  · simp [programNodes, NewParser_eq, ParseProgram, ParseProgramLoop_step,
      ParseProgramLoop_stop, parseStatement, parsePrintStatement, parseExpression_eq,
      parseTerm_eq, parseFactor_eq, peekTokenIsOperator, parseExpressionLoop_stop,
      parseExpressionLoop_step, parseTermLoop_stop]
  · simp [programNodesNoPre, NewParser_eq, ParseProgramNoPre, ParseProgramLoopNoPre_step,
      ParseProgramLoopNoPre_stop, parseStatementNoPre, parsePrintStatementNoPre,
      parseAssignmentOrDeclarationNoPre, parseExpressionNoPre_eq, parseTermNoPre_eq,
      parseFactorNoPre_eq, parseExpressionLoopNoPre_stop, parseTermLoopNoPre_stop]

/-- C18, amended: the pre-advance of `parseFactor` is not redundant, it is
what brings an operator under the eyes of the loops of `parseTerm` and
`parseExpression`.  The two parsers agree where it never fires: for every
token stream in which no identifier or number is directly followed by an
arithmetic operator, `ParseProgram` returns the same nodes with `parseFactor`
as written and with the `parseFactor` that omits the pre-advance. -/
theorem C18_pre_advance_needed (toks : List Token)
    (h : noOperandBeforeOperator toks = true) :
    programNodes toks = programNodesNoPre toks := by
  unfold programNodes programNodesNoPre ParseProgram ParseProgramNoPre
  rw [NewParser_eq, ParseProgramLoop_noPre _ _ (noOperandBeforeOperator_ofTokens toks [] h)]

/-- C18 amended, at `show ( a ) x : number = 5`: no operand is followed by an
operator and both parsers return the same nodes. -/
theorem C18_pre_advance_needed_witness :
    programNodes
        [⟨TokenType.SHOW, "show"⟩, ⟨TokenType.LPAREN, "("⟩, ⟨TokenType.IDENT, "a"⟩,
          ⟨TokenType.RPAREN, ")"⟩, ⟨TokenType.IDENT, "x"⟩, ⟨TokenType.COLON, ":"⟩,
          ⟨TokenType.NATURAL_NUMBER_TYPE, "number"⟩, ⟨TokenType.ASSIGN, "="⟩,
          ⟨TokenType.NUMBER, "5"⟩] =
      programNodesNoPre
        [⟨TokenType.SHOW, "show"⟩, ⟨TokenType.LPAREN, "("⟩, ⟨TokenType.IDENT, "a"⟩,
          ⟨TokenType.RPAREN, ")"⟩, ⟨TokenType.IDENT, "x"⟩, ⟨TokenType.COLON, ":"⟩,
          ⟨TokenType.NATURAL_NUMBER_TYPE, "number"⟩, ⟨TokenType.ASSIGN, "="⟩,
          ⟨TokenType.NUMBER, "5"⟩] :=
  C18_pre_advance_needed
    [⟨TokenType.SHOW, "show"⟩, ⟨TokenType.LPAREN, "("⟩, ⟨TokenType.IDENT, "a"⟩,
      ⟨TokenType.RPAREN, ")"⟩, ⟨TokenType.IDENT, "x"⟩, ⟨TokenType.COLON, ":"⟩,
      ⟨TokenType.NATURAL_NUMBER_TYPE, "number"⟩, ⟨TokenType.ASSIGN, "="⟩,
      ⟨TokenType.NUMBER, "5"⟩] (by decide)

/-- C19: an identifier with no recognised continuation yields no node and
consumes the following token too.  On `x t` followed by `rest`, with `t`
neither `:` nor `=`, `ParseProgram` returns the nodes it returns on `rest` and
prints exactly what it prints on `rest`: nothing for the dropped statement. -/
theorem C19_identifier_without_continuation (x : String) (t : Token) (rest : List Token)
    (h1 : t.Typ ≠ TokenType.COLON) (h2 : t.Typ ≠ TokenType.ASSIGN) :
    programNodes (⟨TokenType.IDENT, x⟩ :: t :: rest) = programNodes rest ∧
      programOutput (⟨TokenType.IDENT, x⟩ :: t :: rest) = programOutput rest := by
  have hstep : ParseProgram (NewParser ⟨⟨TokenType.IDENT, x⟩ :: t :: rest⟩) =
      ParseProgramLoop [] (Parser.ofTokens rest []) := by
    rw [ParseProgram, NewParser_eq, ParseProgramLoop_step _ _ (by simp)]
    simp [parseStatement, parseAssignmentOrDeclaration, h1, h2]
  unfold programNodes programOutput
  rw [hstep, ParseProgram, NewParser_eq]
  exact ⟨rfl, rfl⟩

/-- C19 at `x 5 show y`: the `x` and the `5` are dropped silently. -/
theorem C19_identifier_without_continuation_witness :
    programNodes
        [⟨TokenType.IDENT, "x"⟩, ⟨TokenType.NUMBER, "5"⟩, ⟨TokenType.SHOW, "show"⟩,
          ⟨TokenType.IDENT, "y"⟩] =
        programNodes [⟨TokenType.SHOW, "show"⟩, ⟨TokenType.IDENT, "y"⟩] ∧
      programOutput
          [⟨TokenType.IDENT, "x"⟩, ⟨TokenType.NUMBER, "5"⟩, ⟨TokenType.SHOW, "show"⟩,
            ⟨TokenType.IDENT, "y"⟩] =
        programOutput [⟨TokenType.SHOW, "show"⟩, ⟨TokenType.IDENT, "y"⟩] :=
  C19_identifier_without_continuation "x" ⟨TokenType.NUMBER, "5"⟩
    [⟨TokenType.SHOW, "show"⟩, ⟨TokenType.IDENT, "y"⟩] (by decide) (by decide)

end ZwaLang
